import Mathlib

/-!
# Verification of the pyqubo symbolic pipeline

A shallow embedding, in Lean, of the core of the pyqubo compiler: the
expression ASTs, the polynomial representations, the order reducer
(`reduce_order.cpp` / `compiler.hpp`), the compiled-model evaluation
(`compiled_qubo.h`, `model.h`) and the coefficient trees (`coeff.h`).
C++ `double` values are modelled as `ℚ`; C++ hash maps are modelled as
association lists (their iteration order is unspecified in the source,
and every property proved below is independent of that order); thrown
C++ exceptions are modelled with `Except String`.

The repository holds two generations of the pipeline side by side: the
older one (`express.h/.cpp`, `prod.h`, `poly.h`, `reduce_order.cpp`,
`model.h`) and the newer one (`abstract_syntax_tree.hpp`,
`compiler.hpp`, `expand.hpp`, `product.hpp`, `variables.hpp`,
`model.hpp`).  Both are embedded here where a property mentions both.
-/

namespace PyQubo

/-! ## Decimal rendering of a natural number

`reduce_order::create_new_var` builds the auxiliary variable's label as
`std::to_string(i) + "*" + std::to_string(j)`.  The freshness argument
for auxiliary labels needs that this map is injective, which reduces to
facts about `Nat.repr`: its characters are decimal digits (so never
`'*'`), and it is injective. -/

/-- The numeric value of a run of decimal digit characters. -/
def listVal (ds : List Char) : ℕ :=
  ds.foldl (fun a c => 10 * a + (c.toNat - 48)) 0

theorem listVal_append_digit (ds : List Char) (c : Char) :
    listVal (ds ++ [c]) = 10 * listVal ds + (c.toNat - 48) := by
  simp [listVal, List.foldl_append]

theorem digitChar_toNat {m : ℕ} (hm : m < 10) : (Nat.digitChar m).toNat = 48 + m := by
  interval_cases m <;> decide

theorem digitChar_ne_star {m : ℕ} (hm : m < 10) : Nat.digitChar m ≠ '*' := by
  interval_cases m <;> decide

/-- `Nat.toDigitsCore` at base 10 with enough fuel produces a non-empty
run of decimal digit characters in front of the accumulator whose value
is the input. -/
theorem toDigitsCore_spec (fuel : ℕ) :
    ∀ {n : ℕ}, n < fuel → ∀ suf : List Char,
      ∃ digs, digs ≠ [] ∧ Nat.toDigitsCore 10 fuel n suf = digs ++ suf ∧
        listVal digs = n ∧ ∀ c ∈ digs, ∃ m, c = Nat.digitChar m ∧ m < 10 := by
  induction fuel with
  | zero => intro n h; exact absurd h (Nat.not_lt_zero _)
  | succ fuel ih =>
    intro n hn suf
    by_cases h10 : n / 10 = 0
    · have hlt : n < 10 := by omega
      refine ⟨[Nat.digitChar (n % 10)], by simp, ?_, ?_, ?_⟩
      · simp [Nat.toDigitsCore, h10]
      · have : n % 10 = n := Nat.mod_eq_of_lt hlt
        simp [listVal, digitChar_toNat (Nat.mod_lt _ (show 0 < 10 by omega))]
        omega
      · intro c hc
        simp only [List.mem_singleton] at hc
        exact ⟨n % 10, hc, Nat.mod_lt _ (by omega)⟩
    · obtain ⟨digs, hne, hdigs, hval, hdig⟩ :=
        ih (show n / 10 < fuel by omega) (Nat.digitChar (n % 10) :: suf)
      refine ⟨digs ++ [Nat.digitChar (n % 10)], by simp, ?_, ?_, ?_⟩
      · have : Nat.toDigitsCore 10 (fuel + 1) n suf
            = Nat.toDigitsCore 10 fuel (n / 10) (Nat.digitChar (n % 10) :: suf) := by
          simp [Nat.toDigitsCore, h10]
        rw [this, hdigs, List.append_assoc]
        rfl
      · rw [listVal_append_digit, hval, digitChar_toNat (Nat.mod_lt _ (by omega))]
        omega
      · intro c hc
        rcases List.mem_append.mp hc with hc | hc
        · exact hdig c hc
        · simp only [List.mem_singleton] at hc
          exact ⟨n % 10, hc, Nat.mod_lt _ (by omega)⟩

theorem repr_data_spec (n : ℕ) :
    (Nat.repr n).data ≠ [] ∧
      (∀ c ∈ (Nat.repr n).data, ∃ m, c = Nat.digitChar m ∧ m < 10) ∧
      listVal (Nat.repr n).data = n := by
  obtain ⟨digs, hne, hdigs, hval, hdig⟩ :=
    toDigitsCore_spec (n + 1) (Nat.lt_succ_self n) []
  have hdata : (Nat.repr n).data = digs := by
    show (List.asString (Nat.toDigits 10 n)).data = digs
    rw [show Nat.toDigits 10 n = digs from by rw [Nat.toDigits, hdigs, List.append_nil]]
    rfl
  rw [hdata]
  exact ⟨hne, hdig, hval⟩

theorem star_not_mem_repr (n : ℕ) : '*' ∉ (Nat.repr n).data := by
  intro h
  obtain ⟨-, hdig, -⟩ := repr_data_spec n
  obtain ⟨m, hc, hm⟩ := hdig _ h
  exact digitChar_ne_star hm hc.symm

theorem repr_injective {m n : ℕ} (h : Nat.repr m = Nat.repr n) : m = n := by
  obtain ⟨-, -, hm⟩ := repr_data_spec m
  obtain ⟨-, -, hn⟩ := repr_data_spec n
  rw [← hm, ← hn, h]

/-- `reduce_order::create_new_var` (reduce_order.cpp line 99): the label of the
auxiliary variable replacing the index pair `(i, j)` is
`std::to_string(i) + "*" + std::to_string(j)` — built from the *indices*. -/
def mkAuxLabel (i j : ℕ) : String :=
  Nat.repr i ++ "*" ++ Nat.repr j

theorem mkAuxLabel_data (i j : ℕ) :
    (mkAuxLabel i j).data = (Nat.repr i).data ++ '*' :: (Nat.repr j).data := by
  show ((Nat.repr i ++ "*") ++ Nat.repr j).data = _
  rw [String.data_append, String.data_append, List.append_assoc]
  rfl

theorem star_mem_mkAuxLabel (i j : ℕ) : '*' ∈ (mkAuxLabel i j).data := by
  rw [mkAuxLabel_data]
  exact List.mem_append_right _ (List.mem_cons_self _ _)

theorem append_star_inj :
    ∀ (l₁ l₂ r₁ r₂ : List Char), '*' ∉ l₁ → '*' ∉ l₂ →
      l₁ ++ '*' :: r₁ = l₂ ++ '*' :: r₂ → l₁ = l₂ ∧ r₁ = r₂ := by
  intro l₁
  induction l₁ with
  | nil =>
    intro l₂ r₁ r₂ _ h₂ h
    cases l₂ with
    | nil => simpa using h
    | cons c l₂ =>
      simp only [List.nil_append, List.cons_append, List.cons.injEq] at h
      exact absurd (h.1 ▸ List.mem_cons_self c l₂) h₂
  | cons c l₁ ih =>
    intro l₂ r₁ r₂ h₁ h₂ h
    cases l₂ with
    | nil =>
      simp only [List.cons_append, List.nil_append, List.cons.injEq] at h
      exact absurd (h.1 ▸ List.mem_cons_self c l₁) h₁
    | cons d l₂ =>
      simp only [List.cons_append, List.cons.injEq] at h
      obtain ⟨he, ht⟩ := h
      obtain ⟨hl, hr⟩ := ih l₂ r₁ r₂ (fun hx => h₁ (List.mem_cons_of_mem _ hx))
        (fun hx => h₂ (List.mem_cons_of_mem _ hx)) ht
      exact ⟨by rw [he, hl], hr⟩

theorem mkAuxLabel_inj {i j i' j' : ℕ} (h : mkAuxLabel i j = mkAuxLabel i' j') :
    i = i' ∧ j = j' := by
  have hd : (mkAuxLabel i j).data = (mkAuxLabel i' j').data := by rw [h]
  rw [mkAuxLabel_data, mkAuxLabel_data] at hd
  obtain ⟨hl, hr⟩ := append_star_inj _ _ _ _ (star_not_mem_repr i) (star_not_mem_repr i') hd
  constructor
  · exact repr_injective (String.ext hl)
  · exact repr_injective (String.ext hr)

/-! ## Coefficient expressions (`coeff.h`, `coeff.cpp`)

`Coeff` is the old pipeline's symbolic coefficient: a number, a
placeholder, or a binary add/mul node.  `CoeffNum::add`/`CoeffNum::mul`
fold two numeric literals eagerly; every other receiver builds a node
(coeff.cpp lines 5-55). -/

inductive Coeff where
  | num (v : ℚ)
  | placeholder (label : String)
  | cadd (l r : Coeff)
  | cmul (l r : Coeff)
deriving DecidableEq, Repr

namespace Coeff

/-- `Coeff::add(CoeffPtr)` / `CoeffNum::add(CoeffPtr)`: the receiver is the
first argument.  `CoeffNum::add` returns `CoeffNum(other.value + this.value)`
when `other` is numeric, otherwise `CoeffAdd(this, other)`. -/
def addC : Coeff → Coeff → Coeff
  | num a, num b => num (b + a)
  | num a, o => cadd (num a) o
  | t, o => cadd t o

/-- `Coeff::mul(double)` / `CoeffNum::mul(double)` (coeff.cpp lines 24-29, 53-55). -/
def mulN : Coeff → ℚ → Coeff
  | num a, x => num (a * x)
  | t, x => cmul t (num x)

/-- `Coeff::mul(CoeffPtr)` / `CoeffNum::mul(CoeffPtr)`. -/
def mulC : Coeff → Coeff → Coeff
  | num a, num b => num (b * a)
  | num a, o => cmul (num a) o
  | t, o => cmul t o

/-- The structural equality test `Coeff::equal_to` (coeff.h): a type check
followed by comparison of the payload; `CoeffMul` also accepts the two
children swapped (coeff.h lines 110-128), `CoeffAdd` does not
(lines 154-162). -/
def equalTo : Coeff → Coeff → Bool
  | placeholder l, placeholder m => l == m
  | num a, num b => a == b
  | cmul l r, cmul l' r' =>
    (equalTo l l' && equalTo r r') || (equalTo r l' && equalTo l r')
  | cadd l r, cadd l' r' => equalTo l l' && equalTo r r'
  | _, _ => false

/-- The denotation of a coefficient against a total placeholder binding.
(The C++ evaluates coefficients by expanding them to a placeholder
polynomial, `Coeff::expand` + `PHPolyBase::evaluate`; the denotation is
the same recursive fold.) -/
def eval (fd : String → ℚ) : Coeff → ℚ
  | num v => v
  | placeholder l => fd l
  | cadd l r => eval fd l + eval fd r
  | cmul l r => eval fd l * eval fd r

theorem eval_addC (fd : String → ℚ) (c d : Coeff) :
    eval fd (addC c d) = eval fd c + eval fd d := by
  cases c <;> cases d <;> simp [addC, eval, add_comm]

theorem eval_mulN (fd : String → ℚ) (c : Coeff) (x : ℚ) :
    eval fd (mulN c x) = eval fd c * x := by
  cases c <;> simp [mulN, eval]

theorem equalTo_refl (c : Coeff) : equalTo c c = true := by
  induction c with
  | num v => simp [equalTo]
  | placeholder l => simp [equalTo]
  | cadd l r ihl ihr => simp [equalTo, ihl, ihr]
  | cmul l r ihl ihr => simp [equalTo, ihl, ihr]

end Coeff

/-! ## Products and terms (`prod.h`, `poly.h`)

A `Prod` stores a strictly increasing array of variable indices (the
C++ keeps each index shifted by `+1` internally and unshifts in
`get_var`; we store the logical indices directly).  The name `Prod` is
taken by Lean's product type, so the embedding calls it `VarProd`.
`Terms` is the `unordered_map<Prod, CoeffPtr>` of a `Poly`, modelled as
an association list; all properties proved below are independent of
the (unspecified) hash-map iteration order. -/

abbrev VarProd := List ℕ

abbrev Terms := List (VarProd × Coeff)

/-- `Prod::create(p0)` (prod.h lines 10-15). -/
def prodCreate1 (p0 : ℕ) : VarProd := [p0]

/-- `Prod::create(p0, p1)` (prod.h lines 17-27).  The C++ constructor throws
`"input indedices should be sorted."` when `p0 ≥ p1`; the reducer only calls
it with `p0 < p1` (proved below under `RWF`), so the check is not modelled. -/
def prodCreate2 (p0 p1 : ℕ) : VarProd := [p0, p1]

/-- `reduce_order`'s local `add_term` (reduce_order.cpp lines 10-17): look the
product up; insert when absent, otherwise replace the stored coefficient by
`coeff->add(existing)` (the *new* coefficient is the receiver). -/
def addTerm : Terms → VarProd → Coeff → Terms
  | [], p, c => [(p, c)]
  | t :: ts, p, c =>
    if t.1 = p then (t.1, Coeff.addC c t.2) :: ts
    else t :: addTerm ts p c

/-- `unordered_map::insert` as used by `replace_variable` and `Poly::copy`:
inserting an already present key is a silent no-op (the coefficient is
dropped). -/
def insertTerm : Terms → VarProd × Coeff → Terms
  | [], u => [u]
  | t :: ts, u => if t.1 = u.1 then t :: ts else t :: insertTerm ts u

/-- `Terms::find`. -/
def findTerm (ts : Terms) (p : VarProd) : Option Coeff :=
  (ts.find? (fun t => t.1 = p)).map (·.2)

/-! ## The encoder (`encoder.h`, `encoder.cpp`)

A list of labels; the index of a label is its position.  `encode`
returns the existing index when the label is known and otherwise
appends it, returning the fresh index. -/

abbrev Encoder := List String

/-- `Encoder::encode(string)` (encoder.cpp lines 11-25): the updated encoder
and the index given to the label. -/
def encode (enc : Encoder) (label : String) : Encoder × ℕ :=
  match enc.indexOf? label with
  | some i => (enc, i)
  | none => (enc ++ [label], enc.length)

/-- `Encoder::decode` (encoder.cpp lines 27-34): throws when the index is
unknown. -/
def decode (enc : Encoder) (i : ℕ) : Except String String :=
  match enc.get? i with
  | some l => .ok l
  | none => .error ("Decode failed. index " ++ Nat.repr i ++ " is out of bounds.")

/-! ## The order reducer (`reduce_order.cpp`)

`make_quadratic` repeatedly replaces the most frequent index pair of
the over-quadratic terms by a fresh auxiliary variable and adds the
AND-constraint penalty, until no term has degree above two. -/

namespace ReduceOrder

/-- `has_higher_degree` (reduce_order.cpp lines 19-28). -/
def hasHigherDegree (ts : Terms) : Bool :=
  ts.any fun t => 2 < t.1.length

/-- The normalized unordered index pairs of one product, as enumerated by
`find_most_common`'s double loop (reduce_order.cpp lines 36-55): every
position pair, sorted by value so that the key is identical. -/
def prodPairs (p : VarProd) : List (ℕ × ℕ) :=
  (List.range p.length).flatMap fun i =>
    ((List.range p.length).filter fun j => i < j).map fun j =>
      if p.getD i 0 < p.getD j 0 then (p.getD i 0, p.getD j 0)
      else (p.getD j 0, p.getD i 0)

/-- All candidate pairs counted by `find_most_common`: one entry per
occurrence, ranging over the terms of degree above two. -/
def candidatePairs (ts : Terms) : List (ℕ × ℕ) :=
  ts.flatMap fun t => if 2 < t.1.length then prodPairs t.1 else []

/-- The strict weak order of `std::map<QuboIndex, …>`: lexicographic on the
index pair.  `find_most_common` iterates the counter in this order and keeps
the first strict maximum. -/
def pairLeB (a b : ℕ × ℕ) : Bool :=
  a.1 < b.1 || (a.1 == b.1 && a.2 ≤ b.2)

/-- Ordered insertion, building the `std::map` iteration order (ascending
`pairLeB`). -/
def insertPair (x : ℕ × ℕ) : List (ℕ × ℕ) → List (ℕ × ℕ)
  | [] => [x]
  | y :: ys => if pairLeB x y then x :: y :: ys else y :: insertPair x ys

/-- The distinct keys of the `std::map` counter, listed in iteration order. -/
def sortPairs : List (ℕ × ℕ) → List (ℕ × ℕ)
  | [] => []
  | x :: xs => insertPair x (sortPairs xs)

/-- `find_most_common` (reduce_order.cpp lines 30-68): count every candidate
pair, then scan the counter in ascending key order keeping the first strict
maximum; the initial value is the value-initialized `QuboIndex`, `(0, 0)`,
with `best_count = 0`. -/
def findMostCommon (ts : Terms) : ℕ × ℕ :=
  let cand := candidatePairs ts
  let keys := sortPairs cand.dedup
  (keys.foldl
      (fun acc k => if acc.1 < cand.count k then (cand.count k, k) else acc)
      ((0, (0, 0)) : ℕ × (ℕ × ℕ))).2

/-- The product substituted for a term containing the replaced pair
(reduce_order.cpp lines 80-91): the indices other than `i` and `j`, with the
new variable appended at the end. -/
def newProd (p : VarProd) (i j a : ℕ) : VarProd :=
  (p.filter fun x => x != i && x != j) ++ [a]

/-- `replace_variable` (reduce_order.cpp lines 70-96): every term whose
product contains both indices is erased and re-inserted (plain
`unordered_map::insert`, so a colliding key silently drops the coefficient)
under the substituted product; other terms are untouched.  The C++
erase/insert loop touches each matching term once, in hash-map order; the
result is modelled order-independently as the fold of the re-insertions over
the untouched terms. -/
def replaceVariable (ts : Terms) (i j a : ℕ) : Terms :=
  let untouched := ts.filter fun t => !(i ∈ t.1 ∧ j ∈ t.1 : Bool)
  let replaced := (ts.filter fun t => (i ∈ t.1 ∧ j ∈ t.1 : Bool)).map
    fun t => (newProd t.1 i j a, t.2)
  replaced.foldl insertTerm untouched

/-- `create_new_var` (reduce_order.cpp lines 98-101): encode the synthesized
label, returning the updated encoder and the variable's index. -/
def createNewVar (pair : ℕ × ℕ) (enc : Encoder) : Encoder × ℕ :=
  encode enc (mkAuxLabel pair.1 pair.2)

/-- `add_and_constraint` (reduce_order.cpp lines 103-108): the four penalty
terms `{a} ↦ 3·s`, `{i,a} ↦ −2·s`, `{j,a} ↦ −2·s`, `{i,j} ↦ s`. -/
def addAndConstraint (ts : Terms) (i j a : ℕ) (s : Coeff) : Terms :=
  addTerm
    (addTerm
      (addTerm
        (addTerm ts (prodCreate1 a) (s.mulN 3))
        (prodCreate2 i a) (s.mulN (-2)))
      (prodCreate2 j a) (s.mulN (-2)))
    (prodCreate2 i j) s

/-- The reducer's state: the polynomial being rewritten and the encoder. -/
structure RState where
  terms : Terms
  enc : Encoder
deriving DecidableEq, Repr

/-- One auxiliary variable introduction: `aux` replaces the pair `(i, j)`. -/
structure Replacement where
  i : ℕ
  j : ℕ
  aux : ℕ
deriving DecidableEq, Repr

/-- One iteration of the `make_quadratic` loop body (reduce_order.cpp
lines 113-118), also recording the replacement it performed. -/
def reduceStep (strength : Coeff) (st : RState) : RState × Replacement :=
  let p := findMostCommon st.terms
  let ea := createNewVar p st.enc
  let t1 := replaceVariable st.terms p.1 p.2 ea.2
  let t2 := addAndConstraint t1 p.1 p.2 ea.2 strength
  (⟨t2, ea.1⟩, ⟨p.1, p.2, ea.2⟩)

/-- The sum of `size − 2` over all terms (truncated at zero), the loop's
termination measure. -/
def measureT (ts : Terms) : ℕ :=
  (ts.map fun t => t.1.length - 2).sum

/-- The `make_quadratic` loop, indexed by the number of remaining
iterations.  Under `RWF` the loop of the C++ exits within `measureT`
iterations (proved below), so `makeQuadratic` runs it with that fuel. -/
def makeQuadraticAux (strength : Coeff) : ℕ → RState → RState × List Replacement
  | 0, st => (st, [])
  | n + 1, st =>
    if hasHigherDegree st.terms then
      let s1 := reduceStep strength st
      let s2 := makeQuadraticAux strength n s1.1
      (s2.1, s1.2 :: s2.2)
    else (st, [])

/-- `make_quadratic` (reduce_order.cpp lines 111-121), together with the
list of replacements it performed. -/
def makeQuadratic (strength : Coeff) (st : RState) : RState × List Replacement :=
  makeQuadraticAux strength (measureT st.terms) st

/-- Well-formedness of a reducer state, as established by expansion: every
product is strictly sorted; no two terms share a product; every index is
registered in the encoder; and any label of the synthesized shape
`"<i>*<j>"` already present in the encoder refers to in-range indices whose
pair no longer occurs in any term of degree above two. -/
structure RWF (st : RState) : Prop where
  sorted : ∀ t ∈ st.terms, t.1.Sorted (· < ·)
  keysNodup : (st.terms.map (·.1)).Nodup
  bounded : ∀ t ∈ st.terms, ∀ x ∈ t.1, x < st.enc.length
  auxclean : ∀ i j : ℕ, mkAuxLabel i j ∈ st.enc →
    i < st.enc.length ∧ j < st.enc.length ∧
      ∀ t ∈ st.terms, 2 < t.1.length → ¬(i ∈ t.1 ∧ j ∈ t.1)

/-- Evaluation of a product at a variable assignment: the product of the
values of its indices. -/
def prodEval (v : ℕ → ℚ) (p : VarProd) : ℚ :=
  (p.map v).prod

/-- Evaluation of a polynomial at a variable assignment and placeholder
binding. -/
def evalTerms (v : ℕ → ℚ) (fd : String → ℚ) (ts : Terms) : ℚ :=
  (ts.map fun t => prodEval v t.1 * t.2.eval fd).sum

end ReduceOrder

namespace ReduceOrder

/-! ### Facts about `find_most_common` -/

theorem foldl_best_fst_le {K : Type} (cnt : K → ℕ) (keys : List K) (acc : ℕ × K) :
    acc.1 ≤ (keys.foldl (fun a k => if a.1 < cnt k then (cnt k, k) else a) acc).1 := by
  induction keys generalizing acc with
  | nil => exact le_rfl
  | cons k ks ih =>
    simp only [List.foldl_cons]
    by_cases h : acc.1 < cnt k
    · simp only [if_pos h]
      exact le_trans (le_of_lt h) (ih (cnt k, k))
    · simp only [if_neg h]
      exact ih acc

theorem foldl_best_fst_ge {K : Type} (cnt : K → ℕ) (keys : List K) (acc : ℕ × K)
    {k : K} (hk : k ∈ keys) :
    cnt k ≤ (keys.foldl (fun a k => if a.1 < cnt k then (cnt k, k) else a) acc).1 := by
  induction keys generalizing acc with
  | nil => cases hk
  | cons k' ks ih =>
    simp only [List.foldl_cons]
    rcases List.mem_cons.mp hk with rfl | hk
    · by_cases h : acc.1 < cnt k
      · simp only [if_pos h]
        exact foldl_best_fst_le cnt ks (cnt k, k)
      · simp only [if_neg h]
        exact le_trans (le_of_not_lt h) (foldl_best_fst_le cnt ks acc)
    · by_cases h : acc.1 < cnt k'
      · simp only [if_pos h]
        exact ih (cnt k', k') hk
      · simp only [if_neg h]
        exact ih acc hk

theorem foldl_best_cases {K : Type} (cnt : K → ℕ) (keys : List K) (acc : ℕ × K) :
    keys.foldl (fun a k => if a.1 < cnt k then (cnt k, k) else a) acc = acc ∨
      ((keys.foldl (fun a k => if a.1 < cnt k then (cnt k, k) else a) acc).2 ∈ keys ∧
        cnt (keys.foldl (fun a k => if a.1 < cnt k then (cnt k, k) else a) acc).2 =
          (keys.foldl (fun a k => if a.1 < cnt k then (cnt k, k) else a) acc).1) := by
  induction keys generalizing acc with
  | nil => exact Or.inl rfl
  | cons k ks ih =>
    simp only [List.foldl_cons]
    by_cases h : acc.1 < cnt k
    · simp only [if_pos h]
      rcases ih (cnt k, k) with h2 | h2
      · right
        rw [h2]
        exact ⟨List.mem_cons_self _ _, rfl⟩
      · exact Or.inr ⟨List.mem_cons_of_mem _ h2.1, h2.2⟩
    · simp only [if_neg h]
      rcases ih acc with h2 | h2
      · exact Or.inl h2
      · exact Or.inr ⟨List.mem_cons_of_mem _ h2.1, h2.2⟩

theorem prodPairs_pair_mem {p : VarProd} {i j : ℕ} (hi : i < p.length) (hj : j < p.length)
    (hij : i < j) :
    (if p.getD i 0 < p.getD j 0 then (p.getD i 0, p.getD j 0)
      else (p.getD j 0, p.getD i 0)) ∈ prodPairs p := by
  unfold prodPairs
  rw [List.mem_flatMap]
  refine ⟨i, List.mem_range.mpr hi, ?_⟩
  rw [List.mem_map]
  exact ⟨j, List.mem_filter.mpr ⟨List.mem_range.mpr hj, by simpa using hij⟩, rfl⟩

theorem prodPairs_mem_elim {p : VarProd} {q : ℕ × ℕ} (h : q ∈ prodPairs p) :
    ∃ i j, i < p.length ∧ j < p.length ∧ i < j ∧
      q = (if p.getD i 0 < p.getD j 0 then (p.getD i 0, p.getD j 0)
        else (p.getD j 0, p.getD i 0)) := by
  unfold prodPairs at h
  rw [List.mem_flatMap] at h
  obtain ⟨i, hi, h⟩ := h
  rw [List.mem_map] at h
  obtain ⟨j, hj, hq⟩ := h
  obtain ⟨hj1, hj2⟩ := List.mem_filter.mp hj
  exact ⟨i, j, List.mem_range.mp hi, List.mem_range.mp hj1, by simpa using hj2, hq.symm⟩

theorem prodPairs_spec {p : VarProd} (hp : p.Sorted (· < ·)) {q : ℕ × ℕ}
    (h : q ∈ prodPairs p) : q.1 ∈ p ∧ q.2 ∈ p ∧ q.1 < q.2 := by
  obtain ⟨i, j, hi, hj, hij, hq⟩ := prodPairs_mem_elim h
  have hlt : p.getD i 0 < p.getD j 0 := by
    rw [List.getD_eq_getElem p 0 hi, List.getD_eq_getElem p 0 hj]
    exact List.pairwise_iff_getElem.mp hp i j hi hj hij
  rw [if_pos hlt] at hq
  subst hq
  refine ⟨?_, ?_, hlt⟩
  · rw [List.getD_eq_getElem p 0 hi]
    exact List.getElem_mem hi
  · rw [List.getD_eq_getElem p 0 hj]
    exact List.getElem_mem hj

theorem candidatePairs_mem_elim {ts : Terms} {q : ℕ × ℕ} (h : q ∈ candidatePairs ts) :
    ∃ t ∈ ts, 2 < t.1.length ∧ q ∈ prodPairs t.1 := by
  unfold candidatePairs at h
  rw [List.mem_flatMap] at h
  obtain ⟨t, ht, hq⟩ := h
  by_cases hdeg : 2 < t.1.length
  · exact ⟨t, ht, hdeg, by simpa [hdeg] using hq⟩
  · simp [hdeg] at hq

theorem candidatePairs_intro {ts : Terms} {t : VarProd × Coeff} (ht : t ∈ ts)
    (hdeg : 2 < t.1.length) {q : ℕ × ℕ} (hq : q ∈ prodPairs t.1) :
    q ∈ candidatePairs ts := by
  unfold candidatePairs
  rw [List.mem_flatMap]
  exact ⟨t, ht, by simpa [hdeg] using hq⟩

theorem mem_insertPair {x y : ℕ × ℕ} {l : List (ℕ × ℕ)} :
    y ∈ insertPair x l ↔ y = x ∨ y ∈ l := by
  induction l with
  | nil => simp [insertPair]
  | cons z zs ih =>
    unfold insertPair
    by_cases h : pairLeB x z = true
    · rw [if_pos h]
      simp [List.mem_cons]
    · rw [if_neg h]
      rw [List.mem_cons, ih, List.mem_cons]
      tauto

theorem mem_sortPairs {y : ℕ × ℕ} {l : List (ℕ × ℕ)} : y ∈ sortPairs l ↔ y ∈ l := by
  induction l with
  | nil => exact Iff.rfl
  | cons x xs ih =>
    unfold sortPairs
    rw [mem_insertPair, ih, List.mem_cons]

/-- When some term has degree above two, `find_most_common` returns one of the
counted pairs. -/
theorem findMostCommon_mem {ts : Terms} (h : hasHigherDegree ts = true) :
    findMostCommon ts ∈ candidatePairs ts := by
  obtain ⟨t, ht, hdeg⟩ : ∃ t ∈ ts, 2 < t.1.length := by
    simpa [hasHigherDegree, List.any_eq_true, decide_eq_true_eq] using h
  have hq0 : (if t.1.getD 0 0 < t.1.getD 1 0 then (t.1.getD 0 0, t.1.getD 1 0)
      else (t.1.getD 1 0, t.1.getD 0 0)) ∈ candidatePairs ts :=
    candidatePairs_intro ht hdeg
      (prodPairs_pair_mem (by omega) (by omega) (by omega))
  set cand := candidatePairs ts with hcand
  set k0 := (if t.1.getD 0 0 < t.1.getD 1 0 then (t.1.getD 0 0, t.1.getD 1 0)
      else (t.1.getD 1 0, t.1.getD 0 0)) with hk0
  have hcount : 0 < cand.count k0 := List.count_pos_iff.mpr hq0
  have hkeys : k0 ∈ sortPairs cand.dedup := by
    rw [mem_sortPairs, List.mem_dedup]
    exact hq0
  have hge : cand.count k0 ≤ (List.foldl
      (fun a k => if a.1 < cand.count k then (cand.count k, k) else a)
      ((0, (0, 0)) : ℕ × (ℕ × ℕ)) (sortPairs cand.dedup)).1 :=
    foldl_best_fst_ge (fun k => cand.count k) (sortPairs cand.dedup)
      ((0, (0, 0)) : ℕ × (ℕ × ℕ)) hkeys
  rcases foldl_best_cases (fun k => cand.count k) (sortPairs cand.dedup)
      ((0, (0, 0)) : ℕ × (ℕ × ℕ)) with hc | hc
  · rw [hc] at hge
    simp only at hge
    omega
  · have hc2 : cand.count (List.foldl
        (fun a k => if a.1 < cand.count k then (cand.count k, k) else a)
        ((0, (0, 0)) : ℕ × (ℕ × ℕ)) (sortPairs cand.dedup)).2 =
          (List.foldl (fun a k => if a.1 < cand.count k then (cand.count k, k) else a)
            ((0, (0, 0)) : ℕ × (ℕ × ℕ)) (sortPairs cand.dedup)).1 := hc.2
    have hmem : (List.foldl (fun a k => if a.1 < cand.count k then (cand.count k, k) else a)
        ((0, (0, 0)) : ℕ × (ℕ × ℕ)) (sortPairs cand.dedup)).2 ∈ cand := by
      refine List.count_pos_iff.mp ?_
      rw [hc2]
      omega
    simpa [findMostCommon] using hmem

end ReduceOrder

namespace ReduceOrder

/-! ### The termination measure of one loop iteration -/

theorem measureT_nil : measureT [] = 0 := rfl

theorem measureT_cons (t : VarProd × Coeff) (ts : Terms) :
    measureT (t :: ts) = (t.1.length - 2) + measureT ts := by
  simp [measureT]

theorem measureT_append (ts us : Terms) :
    measureT (ts ++ us) = measureT ts + measureT us := by
  simp [measureT]

theorem measureT_addTerm {p : VarProd} (hp : p.length ≤ 2) (ts : Terms) (c : Coeff) :
    measureT (addTerm ts p c) = measureT ts := by
  induction ts with
  | nil => simp [addTerm, measureT]; omega
  | cons t ts ih =>
    by_cases h : t.1 = p
    · simp [addTerm, h, measureT_cons]
    · simp [addTerm, h, measureT_cons, ih]

theorem measureT_addAndConstraint (ts : Terms) (i j a : ℕ) (s : Coeff) :
    measureT (addAndConstraint ts i j a s) = measureT ts := by
  unfold addAndConstraint
  rw [measureT_addTerm (by simp [prodCreate2]),
    measureT_addTerm (by simp [prodCreate2]),
    measureT_addTerm (by simp [prodCreate2]),
    measureT_addTerm (by simp [prodCreate1])]

/-- `insertTerm` either leaves the map unchanged (key collision) or appends. -/
theorem insertTerm_eq_or (ts : Terms) (u : VarProd × Coeff) :
    insertTerm ts u = ts ∨ insertTerm ts u = ts ++ [u] := by
  induction ts with
  | nil => exact Or.inr rfl
  | cons t ts ih =>
    by_cases h : t.1 = u.1
    · exact Or.inl (by simp [insertTerm, h])
    · rcases ih with h2 | h2
      · exact Or.inl (by simp [insertTerm, h, h2])
      · exact Or.inr (by simp [insertTerm, h, h2])

theorem insertTerm_of_fresh {ts : Terms} {u : VarProd × Coeff}
    (h : u.1 ∉ ts.map (·.1)) : insertTerm ts u = ts ++ [u] := by
  induction ts with
  | nil => rfl
  | cons t ts ih =>
    simp only [List.map_cons, List.mem_cons, not_or] at h
    have hne : ¬t.1 = u.1 := fun he => h.1 he.symm
    simp [insertTerm, hne, ih h.2]

theorem measureT_insertTerm_le (ts : Terms) (u : VarProd × Coeff) :
    measureT (insertTerm ts u) ≤ measureT ts + (u.1.length - 2) := by
  rcases insertTerm_eq_or ts u with h | h <;> rw [h]
  · omega
  · rw [measureT_append, measureT_cons, measureT_nil]
    omega

theorem measureT_foldl_insert_le (rs : List (VarProd × Coeff)) (acc : Terms) :
    measureT (rs.foldl insertTerm acc) ≤ measureT acc + measureT rs := by
  induction rs generalizing acc with
  | nil => simp [measureT_nil]
  | cons u rs ih =>
    calc measureT ((u :: rs).foldl insertTerm acc)
        = measureT (rs.foldl insertTerm (insertTerm acc u)) := rfl
      _ ≤ measureT (insertTerm acc u) + measureT rs := ih _
      _ ≤ (measureT acc + (u.1.length - 2)) + measureT rs := by
          have := measureT_insertTerm_le acc u
          omega
      _ = measureT acc + measureT (u :: rs) := by
          rw [measureT_cons]
          omega

theorem measureT_filter_split (ts : Terms) (pr : VarProd × Coeff → Bool) :
    measureT (ts.filter pr) + measureT (ts.filter fun t => !pr t) = measureT ts := by
  induction ts with
  | nil => simp [measureT_nil]
  | cons t ts ih =>
    by_cases h : pr t = true
    · rw [List.filter_cons_of_pos h, List.filter_cons_of_neg (by simp [h]),
        measureT_cons, measureT_cons]
      omega
    · rw [List.filter_cons_of_neg (by simpa using h), List.filter_cons_of_pos (by simp [h]),
        measureT_cons, measureT_cons]
      omega

theorem length_filter_ne {l : List ℕ} (hnd : l.Nodup) {i : ℕ} (hi : i ∈ l) :
    (l.filter fun x => x != i).length + 1 = l.length := by
  induction l with
  | nil => cases hi
  | cons a l ih =>
    rw [List.nodup_cons] at hnd
    by_cases h : a = i
    · subst h
      have : ∀ x ∈ l, (x != a) = true := by
        intro x hx
        simpa using fun he : x = a => hnd.1 (he ▸ hx)
      rw [List.filter_cons_of_neg (by simp), List.filter_eq_self.mpr this]
      simp
    · rw [List.filter_cons_of_pos (by simpa using h)]
      have hi' : i ∈ l := by
        rcases List.mem_cons.mp hi with h2 | h2
        · exact absurd h2.symm h
        · exact h2
      simp only [List.length_cons]
      rw [← ih hnd.2 hi']

theorem length_newProd_filter {l : List ℕ} {i j : ℕ} (hnd : l.Nodup) (hi : i ∈ l)
    (hj : j ∈ l) (hij : i ≠ j) :
    (l.filter fun x => x != i && x != j).length + 2 = l.length := by
  have hsplit : (l.filter fun x => x != i && x != j)
      = (l.filter fun x => x != i).filter fun x => x != j := by
    rw [List.filter_filter]
    congr 1
    funext x
    rw [Bool.and_comm]
  rw [hsplit]
  have h1 := length_filter_ne hnd hi
  have hnd' : (l.filter fun x => x != i).Nodup := hnd.filter _
  have hj' : j ∈ l.filter fun x => x != i := by
    rw [List.mem_filter]
    exact ⟨hj, by simpa using hij.symm⟩
  have h2 := length_filter_ne hnd' hj'
  omega

theorem sum_map_lt {α : Type} (l : List α) (f g : α → ℕ)
    (hle : ∀ x ∈ l, f x ≤ g x) (hlt : ∃ x ∈ l, f x < g x) :
    (l.map f).sum < (l.map g).sum := by
  induction l with
  | nil => simp at hlt
  | cons a l ih =>
    simp only [List.map_cons, List.sum_cons]
    rcases hlt with ⟨x, hx, hfg⟩
    rcases List.mem_cons.mp hx with rfl | hx
    · have hrest : (l.map f).sum ≤ (l.map g).sum :=
        List.sum_le_sum fun y hy => hle y (List.mem_cons_of_mem _ hy)
      omega
    · have hrest := ih (fun y hy => hle y (List.mem_cons_of_mem _ hy)) ⟨x, hx, hfg⟩
      have := hle a (List.mem_cons_self _ _)
      omega

end ReduceOrder

namespace ReduceOrder

/-! ### Anatomy of one reducer iteration -/

theorem findMostCommon_spec {st : RState} (hwf : RWF st)
    (h : hasHigherDegree st.terms = true) :
    (findMostCommon st.terms).1 < (findMostCommon st.terms).2 ∧
      ∃ t ∈ st.terms, 2 < t.1.length ∧
        (findMostCommon st.terms).1 ∈ t.1 ∧ (findMostCommon st.terms).2 ∈ t.1 := by
  obtain ⟨t, ht, hdeg, hq⟩ := candidatePairs_mem_elim (findMostCommon_mem h)
  obtain ⟨h1, h2, h3⟩ := prodPairs_spec (hwf.sorted t ht) hq
  exact ⟨h3, t, ht, hdeg, h1, h2⟩

theorem encode_of_fresh {enc : Encoder} {label : String} (h : label ∉ enc) :
    encode enc label = (enc ++ [label], enc.length) := by
  unfold encode
  have hnone : enc.indexOf? label = none :=
    List.indexOf?_eq_none_iff.mpr fun x hx =>
      by simpa using fun he : x = label => h (he ▸ hx)
  rw [hnone]

theorem two_eq_of_sorted_of_mem_iff {l₁ l₂ : List ℕ} (h₁ : l₁.Sorted (· < ·))
    (h₂ : l₂.Sorted (· < ·)) (h : ∀ x, x ∈ l₁ ↔ x ∈ l₂) : l₁ = l₂ := by
  haveI : IsAntisymm ℕ (· < ·) := ⟨fun a b hab hba => absurd hba (not_lt.mpr hab.le)⟩
  exact List.eq_of_perm_of_sorted
    ((List.perm_ext_iff_of_nodup h₁.nodup h₂.nodup).mpr h) h₁ h₂

theorem mem_newProd_self (p : VarProd) (i j a : ℕ) : a ∈ newProd p i j a :=
  List.mem_append_right _ (List.mem_cons_self _ _)

theorem newProd_sorted {p : VarProd} (hp : p.Sorted (· < ·)) {a : ℕ}
    (ha : ∀ x ∈ p, x < a) (i j : ℕ) : (newProd p i j a).Sorted (· < ·) := by
  unfold newProd
  rw [List.Sorted, List.pairwise_append]
  refine ⟨hp.filter _, List.pairwise_singleton _ _, ?_⟩
  intro x hx y hy
  rw [List.mem_singleton] at hy
  subst hy
  exact ha x (List.mem_of_mem_filter hx)

theorem mem_of_mem_newProd {p : VarProd} {i j a x : ℕ} (h : x ∈ newProd p i j a) :
    (x ∈ p ∧ x ≠ i ∧ x ≠ j) ∨ x = a := by
  rcases List.mem_append.mp h with h | h
  · obtain ⟨hmem, hcond⟩ := List.mem_filter.mp h
    simp only [Bool.and_eq_true, bne_iff_ne, ne_eq] at hcond
    exact Or.inl ⟨hmem, hcond⟩
  · exact Or.inr (List.mem_singleton.mp h)

theorem newProd_inj {p q : VarProd} {i j a : ℕ} (hp : p.Sorted (· < ·))
    (hq : q.Sorted (· < ·)) (hpi : i ∈ p) (hpj : j ∈ p) (hqi : i ∈ q) (hqj : j ∈ q)
    (h : newProd p i j a = newProd q i j a) : p = q := by
  have hfil : (p.filter fun x => x != i && x != j) = (q.filter fun x => x != i && x != j) :=
    List.append_cancel_right h
  refine two_eq_of_sorted_of_mem_iff hp hq fun x => ?_
  constructor
  · intro hx
    by_cases hxi : x = i
    · exact hxi ▸ hqi
    · by_cases hxj : x = j
      · exact hxj ▸ hqj
      · have : x ∈ q.filter fun x => x != i && x != j := by
          rw [← hfil]
          rw [List.mem_filter]
          exact ⟨hx, by simp [hxi, hxj]⟩
        exact List.mem_of_mem_filter this
  · intro hx
    by_cases hxi : x = i
    · exact hxi ▸ hpi
    · by_cases hxj : x = j
      · exact hxj ▸ hpj
      · have : x ∈ p.filter fun x => x != i && x != j := by
          rw [hfil]
          rw [List.mem_filter]
          exact ⟨hx, by simp [hxi, hxj]⟩
        exact List.mem_of_mem_filter this

theorem foldl_insert_of_fresh :
    ∀ (rs : List (VarProd × Coeff)) (acc : Terms),
      (∀ u ∈ rs, u.1 ∉ acc.map (·.1)) → (rs.map (·.1)).Nodup →
        rs.foldl insertTerm acc = acc ++ rs := by
  intro rs
  induction rs with
  | nil => intro acc _ _; simp
  | cons u rs ih =>
    intro acc hfresh hnodup
    have h1 : insertTerm acc u = acc ++ [u] :=
      insertTerm_of_fresh (hfresh u (List.mem_cons_self _ _))
    rw [List.foldl_cons, h1, ih (acc ++ [u]) ?_ (by
      rw [List.map_cons, List.nodup_cons] at hnodup
      exact hnodup.2)]
    · rw [List.append_assoc]
      rfl
    · intro w hw
      rw [List.map_append, List.map_cons]
      rw [List.mem_append]
      rintro (hmem | hmem)
      · exact hfresh w (List.mem_cons_of_mem _ hw) hmem
      · rw [List.map_nil, List.mem_singleton] at hmem
        rw [List.map_cons, List.nodup_cons] at hnodup
        exact hnodup.1 (hmem ▸ List.mem_map_of_mem (·.1) hw)

end ReduceOrder

namespace ReduceOrder

/-- Membership predicate used by `replace_variable`'s scan. -/
def hitsPair (i j : ℕ) (t : VarProd × Coeff) : Bool :=
  decide (i ∈ t.1 ∧ j ∈ t.1)

theorem replaceVariable_eq (ts : Terms) (i j a : ℕ) :
    replaceVariable ts i j a =
      ((ts.filter fun t => hitsPair i j t).map fun t => (newProd t.1 i j a, t.2)).foldl
        insertTerm (ts.filter fun t => !hitsPair i j t) := rfl

/-- Under well-formedness the auxiliary index is fresh, no inserted key
collides, and `replace_variable` is exactly: untouched terms followed by the
rewritten terms. -/
theorem replaceVariable_eq_of_fresh {ts : Terms} {i j a : ℕ}
    (hsorted : ∀ t ∈ ts, t.1.Sorted (· < ·))
    (hkeys : (ts.map (·.1)).Nodup)
    (hfresh : ∀ t ∈ ts, ∀ x ∈ t.1, x < a) :
    replaceVariable ts i j a =
      (ts.filter fun t => !hitsPair i j t) ++
        ((ts.filter fun t => hitsPair i j t).map fun t => (newProd t.1 i j a, t.2)) := by
  rw [replaceVariable_eq]
  apply foldl_insert_of_fresh
  · intro u hu hmem
    rw [List.mem_map] at hu
    obtain ⟨t, ht, rfl⟩ := hu
    rw [List.mem_map] at hmem
    obtain ⟨w, hw, hkey⟩ := hmem
    have hwts : w ∈ ts := List.mem_of_mem_filter hw
    have : a ∈ w.1 := by
      rw [hkey]
      exact mem_newProd_self _ _ _ _
    exact absurd (hfresh w hwts a this) (lt_irrefl a)
  · rw [List.map_map]
    have hsub : List.Sublist (ts.filter fun t => hitsPair i j t) ts := List.filter_sublist _
    have hmatchedKeys : ((ts.filter fun t => hitsPair i j t).map (·.1)).Nodup :=
      hkeys.sublist (hsub.map (·.1))
    have hmatchedNodup : (ts.filter fun t => hitsPair i j t).Nodup :=
      List.Nodup.of_map _ hmatchedKeys
    refine List.Nodup.map_on ?_ hmatchedNodup
    intro t ht t' ht' hmn
    have hp₁ := List.mem_filter.mp ht
    have hp₂ := List.mem_filter.mp ht'
    have hh₁ : i ∈ t.1 ∧ j ∈ t.1 := by simpa [hitsPair] using hp₁.2
    have hh₂ : i ∈ t'.1 ∧ j ∈ t'.1 := by simpa [hitsPair] using hp₂.2
    have hmn' : newProd t.1 i j a = newProd t'.1 i j a := by simpa using hmn
    have heq : t.1 = t'.1 :=
      newProd_inj (hsorted _ hp₁.1) (hsorted _ hp₂.1) hh₁.1 hh₁.2 hh₂.1 hh₂.2 hmn'
    exact List.inj_on_of_nodup_map hmatchedKeys ht ht' heq

end ReduceOrder

namespace ReduceOrder

theorem measureT_replaceVariable_lt {ts : Terms} {i j a : ℕ}
    (hsorted : ∀ t ∈ ts, t.1.Sorted (· < ·)) (hij : i ≠ j)
    (hwit : ∃ t ∈ ts, 2 < t.1.length ∧ i ∈ t.1 ∧ j ∈ t.1) :
    measureT (replaceVariable ts i j a) < measureT ts := by
  rw [replaceVariable_eq]
  obtain ⟨t0, ht0, hdeg0, hi0, hj0⟩ := hwit
  have hmatched_lt : measureT ((ts.filter fun t => hitsPair i j t).map
      fun t => (newProd t.1 i j a, t.2)) < measureT (ts.filter fun t => hitsPair i j t) := by
    have hrw : measureT ((ts.filter fun t => hitsPair i j t).map
        fun t => (newProd t.1 i j a, t.2))
        = ((ts.filter fun t => hitsPair i j t).map
            fun t => (newProd t.1 i j a).length - 2).sum := by
      simp only [measureT, List.map_map]
      rfl
    rw [hrw]
    have hrw2 : measureT (ts.filter fun t => hitsPair i j t)
        = ((ts.filter fun t => hitsPair i j t).map fun t => t.1.length - 2).sum := rfl
    rw [hrw2]
    have hlen : ∀ t ∈ ts.filter fun t => hitsPair i j t,
        (newProd t.1 i j a).length + 1 = t.1.length := by
      intro t ht
      obtain ⟨hts, hhits⟩ := List.mem_filter.mp ht
      have hh : i ∈ t.1 ∧ j ∈ t.1 := by simpa [hitsPair] using hhits
      have hnd : t.1.Nodup := (hsorted t hts).nodup
      have := length_newProd_filter hnd hh.1 hh.2 hij
      simp only [newProd, List.length_append, List.length_singleton]
      omega
    apply sum_map_lt
    · intro t ht
      have := hlen t ht
      omega
    · refine ⟨t0, List.mem_filter.mpr ⟨ht0, by simp [hitsPair, hi0, hj0]⟩, ?_⟩
      have := hlen t0 (List.mem_filter.mpr ⟨ht0, by simp [hitsPair, hi0, hj0]⟩)
      omega
  have hfold := measureT_foldl_insert_le
    ((ts.filter fun t => hitsPair i j t).map fun t => (newProd t.1 i j a, t.2))
    (ts.filter fun t => !hitsPair i j t)
  have hsplit := measureT_filter_split ts (fun t => hitsPair i j t)
  omega

/-- Under well-formedness the pair chosen by an iteration of the loop is
ordered, occurs in a term of degree above two, its label is not yet encoded,
and the iteration rewrites the state as described by the source. -/
theorem reduceStep_eq {st : RState} (hwf : RWF st)
    (h : hasHigherDegree st.terms = true) (s : Coeff) :
    (reduceStep s st).1.enc
        = st.enc ++ [mkAuxLabel (findMostCommon st.terms).1 (findMostCommon st.terms).2] ∧
      (reduceStep s st).2
        = ⟨(findMostCommon st.terms).1, (findMostCommon st.terms).2, st.enc.length⟩ ∧
      (reduceStep s st).1.terms =
        addAndConstraint
          (replaceVariable st.terms (findMostCommon st.terms).1 (findMostCommon st.terms).2
            st.enc.length)
          (findMostCommon st.terms).1 (findMostCommon st.terms).2 st.enc.length s := by
  obtain ⟨hlt, t, ht, hdeg, hi, hj⟩ := findMostCommon_spec hwf h
  have hfree : mkAuxLabel (findMostCommon st.terms).1 (findMostCommon st.terms).2 ∉ st.enc := by
    intro hmem
    obtain ⟨-, -, hclean⟩ := hwf.auxclean _ _ hmem
    exact hclean t ht hdeg ⟨hi, hj⟩
  have henc := encode_of_fresh hfree
  refine ⟨?_, ?_, ?_⟩ <;>
    simp [reduceStep, createNewVar, henc]

theorem measureT_reduceStep_lt {st : RState} (hwf : RWF st)
    (h : hasHigherDegree st.terms = true) (s : Coeff) :
    measureT (reduceStep s st).1.terms < measureT st.terms := by
  obtain ⟨hlt, t, ht, hdeg, hi, hj⟩ := findMostCommon_spec hwf h
  obtain ⟨-, -, hterms⟩ := reduceStep_eq hwf h s
  rw [hterms, measureT_addAndConstraint]
  exact measureT_replaceVariable_lt hwf.sorted (Nat.ne_of_lt hlt) ⟨t, ht, hdeg, hi, hj⟩

end ReduceOrder

namespace ReduceOrder

/-! ### Key analysis of one iteration's result -/

theorem mem_insertTerm_elim {ts : Terms} {u w : VarProd × Coeff}
    (h : w ∈ insertTerm ts u) : w ∈ ts ∨ w = u := by
  rcases insertTerm_eq_or ts u with he | he <;> rw [he] at h
  · exact Or.inl h
  · rcases List.mem_append.mp h with h | h
    · exact Or.inl h
    · exact Or.inr (List.mem_singleton.mp h)

theorem mem_foldl_insert_elim :
    ∀ (rs : List (VarProd × Coeff)) (acc : Terms) {w : VarProd × Coeff},
      w ∈ rs.foldl insertTerm acc → w ∈ acc ∨ w ∈ rs := by
  intro rs
  induction rs with
  | nil => intro acc w h; exact Or.inl h
  | cons u rs ih =>
    intro acc w h
    rcases ih (insertTerm acc u) h with h2 | h2
    · rcases mem_insertTerm_elim h2 with h3 | h3
      · exact Or.inl h3
      · exact Or.inr (h3 ▸ List.mem_cons_self _ _)
    · exact Or.inr (List.mem_cons_of_mem _ h2)

theorem mem_addTerm_elim {ts : Terms} {p : VarProd} {c : Coeff} {w : VarProd × Coeff}
    (h : w ∈ addTerm ts p c) : w.1 ∈ ts.map (·.1) ∨ w.1 = p := by
  induction ts with
  | nil =>
    simp only [addTerm, List.mem_singleton] at h
    exact Or.inr (by rw [h])
  | cons t ts ih =>
    by_cases hp : t.1 = p
    · simp only [addTerm, if_pos hp, List.mem_cons] at h
      rcases h with h | h
      · refine Or.inl ?_
        rw [h, List.map_cons]
        exact List.mem_cons_self _ _
      · exact Or.inl (List.mem_map_of_mem (·.1) (List.mem_cons_of_mem _ h))
    · simp only [addTerm, if_neg hp, List.mem_cons] at h
      rcases h with h | h
      · refine Or.inl ?_
        rw [h, List.map_cons]
        exact List.mem_cons_self _ _
      · rcases ih h with h2 | h2
        · refine Or.inl ?_
          rw [List.map_cons]
          exact List.mem_cons_of_mem _ h2
        · exact Or.inr h2

theorem addTerm_keys_nodup {ts : Terms} (h : (ts.map (·.1)).Nodup) (p : VarProd)
    (c : Coeff) : ((addTerm ts p c).map (·.1)).Nodup := by
  induction ts with
  | nil => simp [addTerm]
  | cons t ts ih =>
    rw [List.map_cons, List.nodup_cons] at h
    by_cases hp : t.1 = p
    · simp only [addTerm, if_pos hp, List.map_cons, List.nodup_cons]
      exact ⟨h.1, h.2⟩
    · simp only [addTerm, if_neg hp, List.map_cons, List.nodup_cons]
      refine ⟨?_, ih h.2⟩
      intro hmem
      rw [List.mem_map] at hmem
      obtain ⟨w, hw, hkey⟩ := hmem
      rcases mem_addTerm_elim hw with h2 | h2
      · exact h.1 (hkey ▸ h2)
      · exact hp (hkey ▸ h2)

theorem key_mem_addTerm_elim {ts : Terms} {p : VarProd} {c : Coeff} {x : VarProd}
    (h : x ∈ (addTerm ts p c).map (·.1)) : x ∈ ts.map (·.1) ∨ x = p := by
  rw [List.mem_map] at h
  obtain ⟨w, hw, rfl⟩ := h
  exact mem_addTerm_elim hw

theorem mappedKeys_nodup {ts : Terms} {i j a : ℕ}
    (hsorted : ∀ t ∈ ts, t.1.Sorted (· < ·)) (hkeys : (ts.map (·.1)).Nodup) :
    (((ts.filter fun t => hitsPair i j t).map
      fun t => (newProd t.1 i j a, t.2)).map (·.1)).Nodup := by
  rw [List.map_map]
  have hsub : List.Sublist (ts.filter fun t => hitsPair i j t) ts := List.filter_sublist _
  have hmatchedKeys : ((ts.filter fun t => hitsPair i j t).map (·.1)).Nodup :=
    hkeys.sublist (hsub.map (·.1))
  have hmatchedNodup : (ts.filter fun t => hitsPair i j t).Nodup :=
    List.Nodup.of_map _ hmatchedKeys
  refine List.Nodup.map_on ?_ hmatchedNodup
  intro t ht t' ht' hmn
  have hp₁ := List.mem_filter.mp ht
  have hp₂ := List.mem_filter.mp ht'
  have hh₁ : i ∈ t.1 ∧ j ∈ t.1 := by simpa [hitsPair] using hp₁.2
  have hh₂ : i ∈ t'.1 ∧ j ∈ t'.1 := by simpa [hitsPair] using hp₂.2
  have hmn' : newProd t.1 i j a = newProd t'.1 i j a := by simpa using hmn
  have heq : t.1 = t'.1 :=
    newProd_inj (hsorted _ hp₁.1) (hsorted _ hp₂.1) hh₁.1 hh₁.2 hh₂.1 hh₂.2 hmn'
  exact List.inj_on_of_nodup_map hmatchedKeys ht ht' heq

theorem stepTerms_key_cases {ts : Terms} {i j a : ℕ} {s : Coeff}
    (hsorted : ∀ t ∈ ts, t.1.Sorted (· < ·))
    (hkeys : (ts.map (·.1)).Nodup)
    (hfresh : ∀ t ∈ ts, ∀ x ∈ t.1, x < a)
    {w : VarProd × Coeff}
    (hw : w ∈ addAndConstraint (replaceVariable ts i j a) i j a s) :
    (∃ t ∈ ts, ¬(i ∈ t.1 ∧ j ∈ t.1) ∧ w.1 = t.1) ∨
      (∃ t ∈ ts, (i ∈ t.1 ∧ j ∈ t.1) ∧ w.1 = newProd t.1 i j a) ∨
      w.1 = [a] ∨ w.1 = [i, a] ∨ w.1 = [j, a] ∨ w.1 = [i, j] := by
  have hrep := replaceVariable_eq_of_fresh (i := i) (j := j) hsorted hkeys hfresh
  unfold addAndConstraint at hw
  have h4 := mem_addTerm_elim hw
  rcases h4 with h4 | h4
  swap
  · simp only [prodCreate2] at h4
    tauto
  rcases key_mem_addTerm_elim h4 with h3 | h3
  swap
  · simp only [prodCreate2] at h3
    tauto
  rcases key_mem_addTerm_elim h3 with h2 | h2
  swap
  · simp only [prodCreate2] at h2
    tauto
  rcases key_mem_addTerm_elim h2 with h1 | h1
  swap
  · simp only [prodCreate1] at h1
    tauto
  rw [hrep, List.map_append, List.mem_append] at h1
  rcases h1 with h1 | h1
  · rw [List.mem_map] at h1
    obtain ⟨u, hu, hkey⟩ := h1
    obtain ⟨huts, hcond⟩ := List.mem_filter.mp hu
    refine Or.inl ⟨u, huts, ?_, hkey.symm⟩
    have hfalse : hitsPair i j u = false := by simpa using hcond
    simpa [hitsPair] using hfalse
  · rw [List.map_map, List.mem_map] at h1
    obtain ⟨u, hu, hkey⟩ := h1
    obtain ⟨huts, hcond⟩ := List.mem_filter.mp hu
    refine Or.inr (Or.inl ⟨u, huts, ?_, ?_⟩)
    · simpa [hitsPair] using hcond
    · exact hkey.symm

theorem replaceVariable_keys_nodup {ts : Terms} {i j a : ℕ}
    (hsorted : ∀ t ∈ ts, t.1.Sorted (· < ·))
    (hkeys : (ts.map (·.1)).Nodup)
    (hfresh : ∀ t ∈ ts, ∀ x ∈ t.1, x < a) :
    ((replaceVariable ts i j a).map (·.1)).Nodup := by
  rw [replaceVariable_eq_of_fresh hsorted hkeys hfresh, List.map_append]
  refine List.Nodup.append
    (hkeys.sublist ((List.filter_sublist ts).map (·.1)))
    (mappedKeys_nodup hsorted hkeys) ?_
  intro x hx hx'
  rw [List.mem_map] at hx
  obtain ⟨u, hu, hkeyu⟩ := hx
  rw [List.map_map, List.mem_map] at hx'
  obtain ⟨w, hw, hkeyw⟩ := hx'
  have hamem : a ∈ u.1 := by
    have hxw : x = newProd w.1 i j a := hkeyw.symm
    rw [hkeyu, hxw]
    exact mem_newProd_self _ _ _ _
  exact absurd (hfresh u (List.mem_of_mem_filter hu) a hamem) (lt_irrefl a)

/-- One loop iteration preserves well-formedness. -/
theorem RWF_reduceStep {st : RState} (hwf : RWF st)
    (h : hasHigherDegree st.terms = true) (s : Coeff) :
    RWF (reduceStep s st).1 := by
  obtain ⟨hlt, t0, ht0, hdeg0, hi0, hj0⟩ := findMostCommon_spec hwf h
  obtain ⟨henc, -, hterms⟩ := reduceStep_eq hwf h s
  have hia : (findMostCommon st.terms).1 < st.enc.length := hwf.bounded t0 ht0 _ hi0
  have hja : (findMostCommon st.terms).2 < st.enc.length := hwf.bounded t0 ht0 _ hj0
  have hfresh : ∀ t ∈ st.terms, ∀ x ∈ t.1, x < st.enc.length := hwf.bounded
  have hlen : (reduceStep s st).1.enc.length = st.enc.length + 1 := by
    rw [henc]
    simp
  refine ⟨?_, ?_, ?_, ?_⟩
  · intro w hw
    rw [hterms] at hw
    rcases stepTerms_key_cases hwf.sorted hwf.keysNodup hfresh hw with
      ⟨u, hu, -, hkey⟩ | ⟨u, hu, -, hkey⟩ | hkey | hkey | hkey | hkey
    · rw [hkey]
      exact hwf.sorted u hu
    · rw [hkey]
      exact newProd_sorted (hwf.sorted u hu) (fun x hx => hfresh u hu x hx) _ _
    · rw [hkey]
      simp
    · rw [hkey]
      simp [List.sorted_cons, hia]
    · rw [hkey]
      simp [List.sorted_cons, hja]
    · rw [hkey]
      simp [List.sorted_cons, hlt]
  · rw [hterms]
    unfold addAndConstraint
    apply addTerm_keys_nodup
    apply addTerm_keys_nodup
    apply addTerm_keys_nodup
    apply addTerm_keys_nodup
    exact replaceVariable_keys_nodup hwf.sorted hwf.keysNodup hfresh
  · intro w hw x hx
    rw [hterms] at hw
    rw [hlen]
    rcases stepTerms_key_cases hwf.sorted hwf.keysNodup hfresh hw with
      ⟨u, hu, -, hkey⟩ | ⟨u, hu, -, hkey⟩ | hkey | hkey | hkey | hkey
    · rw [hkey] at hx
      exact lt_trans (hwf.bounded u hu x hx) (Nat.lt_succ_self _)
    · rw [hkey] at hx
      rcases mem_of_mem_newProd hx with ⟨hxm, -, -⟩ | rfl
      · exact lt_trans (hwf.bounded u hu x hxm) (Nat.lt_succ_self _)
      · exact Nat.lt_succ_self _
    · rw [hkey] at hx
      rw [List.mem_singleton] at hx
      subst hx
      exact Nat.lt_succ_self _
    · rw [hkey] at hx
      simp only [List.mem_cons, List.mem_singleton, List.not_mem_nil, or_false] at hx
      rcases hx with rfl | rfl <;> omega
    · rw [hkey] at hx
      simp only [List.mem_cons, List.mem_singleton, List.not_mem_nil, or_false] at hx
      rcases hx with rfl | rfl <;> omega
    · rw [hkey] at hx
      simp only [List.mem_cons, List.mem_singleton, List.not_mem_nil, or_false] at hx
      rcases hx with rfl | rfl <;> omega
  · intro i' j' hmem
    rw [henc, List.mem_append, List.mem_singleton] at hmem
    rw [hlen]
    rcases hmem with hmem | hmem
    · obtain ⟨hbi, hbj, hcl⟩ := hwf.auxclean i' j' hmem
      refine ⟨lt_trans hbi (Nat.lt_succ_self _), lt_trans hbj (Nat.lt_succ_self _), ?_⟩
      intro t ht hdeg
      rintro ⟨hti, htj⟩
      rw [hterms] at ht
      rcases stepTerms_key_cases hwf.sorted hwf.keysNodup hfresh ht with
        ⟨u, hu, -, hkey⟩ | ⟨u, hu, hcont, hkey⟩ | hkey | hkey | hkey | hkey
      · rw [hkey] at hdeg hti htj
        exact hcl u hu hdeg ⟨hti, htj⟩
      · rw [hkey] at hdeg hti htj
        have hi'mem : i' ∈ u.1 := by
          rcases mem_of_mem_newProd hti with ⟨hm, -, -⟩ | rfl
          · exact hm
          · exact absurd hbi (lt_irrefl _)
        have hj'mem : j' ∈ u.1 := by
          rcases mem_of_mem_newProd htj with ⟨hm, -, -⟩ | rfl
          · exact hm
          · exact absurd hbj (lt_irrefl _)
        have hlenu : 2 < u.1.length := by
          have hnd : u.1.Nodup := (hwf.sorted u hu).nodup
          have hflt := length_newProd_filter hnd hcont.1 hcont.2 (Nat.ne_of_lt hlt)
          have hnp : (newProd u.1 (findMostCommon st.terms).1 (findMostCommon st.terms).2
              st.enc.length).length
              = (u.1.filter fun x => x != (findMostCommon st.terms).1 &&
                  x != (findMostCommon st.terms).2).length + 1 := by
            simp [newProd]
          omega
        exact hcl u hu hlenu ⟨hi'mem, hj'mem⟩
      · rw [hkey] at hdeg
        simp at hdeg
      · rw [hkey] at hdeg
        simp at hdeg
      · rw [hkey] at hdeg
        simp at hdeg
      · rw [hkey] at hdeg
        simp at hdeg
    · obtain ⟨hi', hj'⟩ := mkAuxLabel_inj hmem
      subst hi'
      subst hj'
      refine ⟨by omega, by omega, ?_⟩
      intro t ht hdeg
      rintro ⟨hti, htj⟩
      rw [hterms] at ht
      rcases stepTerms_key_cases hwf.sorted hwf.keysNodup hfresh ht with
        ⟨u, hu, hnot, hkey⟩ | ⟨u, hu, hcont, hkey⟩ | hkey | hkey | hkey | hkey
      · rw [hkey] at hti htj
        exact hnot ⟨hti, htj⟩
      · rw [hkey] at hti
        rcases mem_of_mem_newProd hti with ⟨-, hne, -⟩ | heq
        · exact hne rfl
        · omega
      · rw [hkey] at hdeg
        simp at hdeg
      · rw [hkey] at hdeg
        simp at hdeg
      · rw [hkey] at hdeg
        simp at hdeg
      · rw [hkey] at hdeg
        simp at hdeg

end ReduceOrder

namespace ReduceOrder

/-! ### Iterating the loop to its fixed point -/

theorem measureT_pos_of_higher {ts : Terms} (h : hasHigherDegree ts = true) :
    0 < measureT ts := by
  obtain ⟨t, ht, hdeg⟩ : ∃ t ∈ ts, 2 < t.1.length := by
    simpa [hasHigherDegree, List.any_eq_true, decide_eq_true_eq] using h
  have hle : t.1.length - 2 ≤ measureT ts :=
    List.single_le_sum (fun x _ => Nat.zero_le x) _
      (List.mem_map_of_mem (fun t => t.1.length - 2) ht)
  omega

theorem makeQuadraticAux_spec (s : Coeff) :
    ∀ (n : ℕ) (st : RState), RWF st → measureT st.terms ≤ n →
      RWF (makeQuadraticAux s n st).1 ∧
        hasHigherDegree (makeQuadraticAux s n st).1.terms = false := by
  intro n
  induction n with
  | zero =>
    intro st hwf hm
    refine ⟨hwf, ?_⟩
    show hasHigherDegree st.terms = false
    by_contra hh
    rw [Bool.not_eq_false] at hh
    have := measureT_pos_of_higher hh
    omega
  | succ n ih =>
    intro st hwf hm
    by_cases hh : hasHigherDegree st.terms = true
    · have hstep := measureT_reduceStep_lt hwf hh s
      have hwf' := RWF_reduceStep hwf hh s
      have hrec := ih (reduceStep s st).1 hwf' (by omega)
      simpa [makeQuadraticAux, hh] using hrec
    · rw [Bool.not_eq_true] at hh
      rw [show makeQuadraticAux s (n + 1) st = (st, []) by simp [makeQuadraticAux, hh]]
      exact ⟨hwf, hh⟩

/-- On a well-formed state the `make_quadratic` loop reaches, within
`measureT` iterations, a state with no term of degree above two, and the
state stays well-formed. -/
theorem makeQuadratic_spec {st : RState} (hwf : RWF st) (s : Coeff) :
    RWF (makeQuadratic s st).1 ∧
      hasHigherDegree (makeQuadratic s st).1.terms = false :=
  makeQuadraticAux_spec s (measureT st.terms) st hwf le_rfl

end ReduceOrder

namespace ReduceOrder

/-! ### Evaluation preservation of the reducer -/

theorem evalTerms_nil (v : ℕ → ℚ) (fd : String → ℚ) : evalTerms v fd [] = 0 := rfl

theorem evalTerms_cons (v : ℕ → ℚ) (fd : String → ℚ) (t : VarProd × Coeff) (ts : Terms) :
    evalTerms v fd (t :: ts) = prodEval v t.1 * t.2.eval fd + evalTerms v fd ts := by
  simp [evalTerms]

theorem evalTerms_append (v : ℕ → ℚ) (fd : String → ℚ) (ts us : Terms) :
    evalTerms v fd (ts ++ us) = evalTerms v fd ts + evalTerms v fd us := by
  simp [evalTerms]

theorem evalTerms_addTerm (v : ℕ → ℚ) (fd : String → ℚ) (ts : Terms) (p : VarProd)
    (c : Coeff) :
    evalTerms v fd (addTerm ts p c) = evalTerms v fd ts + prodEval v p * c.eval fd := by
  induction ts with
  | nil => simp [addTerm, evalTerms]
  | cons t ts ih =>
    by_cases h : t.1 = p
    · simp only [addTerm, if_pos h, evalTerms_cons, Coeff.eval_addC]
      rw [h]
      ring
    · simp only [addTerm, if_neg h, evalTerms_cons, ih]
      ring

theorem evalTerms_addAndConstraint (v : ℕ → ℚ) (fd : String → ℚ) (ts : Terms)
    (i j a : ℕ) (s : Coeff) :
    evalTerms v fd (addAndConstraint ts i j a s) =
      evalTerms v fd ts +
        (3 * s.eval fd * v a - 2 * s.eval fd * v i * v a - 2 * s.eval fd * v j * v a +
          s.eval fd * v i * v j) := by
  unfold addAndConstraint
  rw [evalTerms_addTerm, evalTerms_addTerm, evalTerms_addTerm, evalTerms_addTerm]
  simp only [Coeff.eval_mulN, prodCreate1, prodCreate2, prodEval]
  simp only [List.map_cons, List.map_nil, List.prod_cons, List.prod_nil]
  ring

theorem evalTerms_filter_split (v : ℕ → ℚ) (fd : String → ℚ) (ts : Terms)
    (pr : VarProd × Coeff → Bool) :
    evalTerms v fd (ts.filter pr) + evalTerms v fd (ts.filter fun t => !pr t) =
      evalTerms v fd ts := by
  induction ts with
  | nil => simp [evalTerms_nil]
  | cons t ts ih =>
    by_cases h : pr t = true
    · rw [List.filter_cons_of_pos h, List.filter_cons_of_neg (by simp [h]),
        evalTerms_cons, evalTerms_cons]
      rw [← ih]
      ring
    · rw [List.filter_cons_of_neg (by simpa using h), List.filter_cons_of_pos (by simp [h]),
        evalTerms_cons, evalTerms_cons]
      rw [← ih]
      ring

theorem prodEval_newProd {p : VarProd} {i j a : ℕ} (hnd : p.Nodup) (hi : i ∈ p)
    (hj : j ∈ p) (hij : i ≠ j) (v : ℕ → ℚ) (hva : v a = v i * v j) :
    prodEval v (newProd p i j a) = prodEval v p := by
  have hnotmem : i ∉ p.filter fun x => x != i && x != j := by
    intro hmem
    have := (List.mem_filter.mp hmem).2
    simp at this
  have hnotmemj : j ∉ p.filter fun x => x != i && x != j := by
    intro hmem
    have := (List.mem_filter.mp hmem).2
    simp at this
  have hperm : p.Perm (i :: j :: p.filter fun x => x != i && x != j) := by
    have hnd2 : (i :: j :: p.filter fun x => x != i && x != j).Nodup := by
      rw [List.nodup_cons, List.nodup_cons]
      refine ⟨?_, hnotmemj, hnd.filter _⟩
      rw [List.mem_cons]
      rintro (rfl | hmem)
      · exact hij rfl
      · exact hnotmem hmem
    rw [List.perm_ext_iff_of_nodup hnd hnd2]
    intro x
    simp only [List.mem_cons, List.mem_filter, Bool.and_eq_true, bne_iff_ne, ne_eq]
    constructor
    · intro hx
      by_cases hxi : x = i
      · exact Or.inl hxi
      · by_cases hxj : x = j
        · exact Or.inr (Or.inl hxj)
        · exact Or.inr (Or.inr ⟨hx, hxi, hxj⟩)
    · rintro (rfl | rfl | ⟨hx, -, -⟩) <;> assumption
  have hpe : prodEval v p = v i * v j * prodEval v (p.filter fun x => x != i && x != j) := by
    unfold prodEval
    rw [(hperm.map v).prod_eq]
    simp only [List.map_cons, List.prod_cons]
    ring
  have hgoal : prodEval v (newProd p i j a)
      = prodEval v (p.filter fun x => x != i && x != j) * v a := by
    unfold newProd prodEval
    rw [List.map_append]
    simp only [List.map_cons, List.map_nil, List.prod_append, List.prod_cons, List.prod_nil]
    ring
  rw [hgoal, hpe, hva]
  ring

end ReduceOrder

namespace ReduceOrder

theorem evalTerms_replaceVariable {ts : Terms} {i j a : ℕ}
    (hsorted : ∀ t ∈ ts, t.1.Sorted (· < ·))
    (hkeys : (ts.map (·.1)).Nodup)
    (hfresh : ∀ t ∈ ts, ∀ x ∈ t.1, x < a)
    (hij : i ≠ j)
    (v : ℕ → ℚ) (fd : String → ℚ) (hva : v a = v i * v j) :
    evalTerms v fd (replaceVariable ts i j a) = evalTerms v fd ts := by
  rw [replaceVariable_eq_of_fresh hsorted hkeys hfresh, evalTerms_append]
  have hmapped : evalTerms v fd ((ts.filter fun t => hitsPair i j t).map
      fun t => (newProd t.1 i j a, t.2))
      = evalTerms v fd (ts.filter fun t => hitsPair i j t) := by
    unfold evalTerms
    rw [List.map_map]
    apply congrArg
    apply List.map_congr_left
    intro t ht
    obtain ⟨hts, hhits⟩ := List.mem_filter.mp ht
    have hh : i ∈ t.1 ∧ j ∈ t.1 := by simpa [hitsPair] using hhits
    have hnd : t.1.Nodup := (hsorted t hts).nodup
    simp only [Function.comp_apply]
    rw [prodEval_newProd hnd hh.1 hh.2 hij v hva]
  rw [hmapped]
  rw [add_comm]
  exact evalTerms_filter_split v fd ts (fun t => hitsPair i j t)

theorem evalTerms_reduceStep {st : RState} (hwf : RWF st)
    (h : hasHigherDegree st.terms = true) (s : Coeff)
    (v : ℕ → ℚ) (fd : String → ℚ)
    (hbin : ∀ x, v x = 0 ∨ v x = 1)
    (hva : v (reduceStep s st).2.aux = v (reduceStep s st).2.i * v (reduceStep s st).2.j) :
    evalTerms v fd (reduceStep s st).1.terms = evalTerms v fd st.terms := by
  obtain ⟨hlt, t0, ht0, hdeg0, hi0, hj0⟩ := findMostCommon_spec hwf h
  obtain ⟨-, hrep, hterms⟩ := reduceStep_eq hwf h s
  rw [hrep] at hva
  simp only at hva
  rw [hterms, evalTerms_addAndConstraint,
    evalTerms_replaceVariable hwf.sorted hwf.keysNodup hwf.bounded (Nat.ne_of_lt hlt) v fd hva]
  have hpen : 3 * s.eval fd * v st.enc.length -
      2 * s.eval fd * v (findMostCommon st.terms).1 * v st.enc.length -
      2 * s.eval fd * v (findMostCommon st.terms).2 * v st.enc.length +
      s.eval fd * v (findMostCommon st.terms).1 * v (findMostCommon st.terms).2 = 0 := by
    rcases hbin (findMostCommon st.terms).1 with hb1 | hb1 <;>
      rcases hbin (findMostCommon st.terms).2 with hb2 | hb2 <;>
      rw [hva, hb1, hb2] <;> ring
  rw [hpen]
  ring

/-- Evaluation is preserved along the whole loop, provided every introduced
auxiliary variable is valued at the product of its pair. -/
theorem makeQuadraticAux_eval (s : Coeff) :
    ∀ (n : ℕ) (st : RState), RWF st →
      ∀ (v : ℕ → ℚ) (fd : String → ℚ), (∀ x, v x = 0 ∨ v x = 1) →
        (∀ r ∈ (makeQuadraticAux s n st).2, v r.aux = v r.i * v r.j) →
        evalTerms v fd (makeQuadraticAux s n st).1.terms = evalTerms v fd st.terms := by
  intro n
  induction n with
  | zero => intro st hwf v fd hbin hfix; rfl
  | succ n ih =>
    intro st hwf v fd hbin hfix
    by_cases hh : hasHigherDegree st.terms = true
    · have hwf' := RWF_reduceStep hwf hh s
      have hres : makeQuadraticAux s (n + 1) st
          = ((makeQuadraticAux s n (reduceStep s st).1).1,
              (reduceStep s st).2 :: (makeQuadraticAux s n (reduceStep s st).1).2) := by
        simp [makeQuadraticAux, hh]
      rw [hres] at hfix ⊢
      simp only [List.mem_cons] at hfix
      have hstep := evalTerms_reduceStep hwf hh s v fd hbin
        (hfix _ (Or.inl rfl))
      have hrec := ih (reduceStep s st).1 hwf' v fd hbin
        (fun r hr => hfix r (Or.inr hr))
      rw [hrec, hstep]
    · rw [Bool.not_eq_true] at hh
      rw [show makeQuadraticAux s (n + 1) st = (st, []) by simp [makeQuadraticAux, hh]]

end ReduceOrder

/-! ## The compiled QUBO and its evaluation (`compiled_qubo.h`)

`CompiledQubo` is the list of `(Prod, compiled coefficient)` pairs built by
`compile_coeff` (poly.cpp), which maps each coefficient pointwise to a
placeholder polynomial and keeps every product unchanged.  Coefficient
evaluation (`PHPolyBase::evaluate` against a feed dict) is modelled directly
by `Coeff.eval`; the products, lengths, and the dispatch of `evaluate` are
exactly those of the source. -/

/-- `std::map::operator[] = value`: insert or overwrite. -/
def storeAssoc {κ ν : Type} [DecidableEq κ] : List (κ × ν) → κ → ν → List (κ × ν)
  | [], k, x => [(k, x)]
  | e :: m, k, x => if e.1 = k then (k, x) :: m else e :: storeAssoc m k x

/-- The `BinaryQuadraticModel<string>` contents built by
`CompiledQubo::evaluate`: linear terms, quadratic terms and the offset. -/
structure BQMs where
  linear : List (String × ℚ)
  quadratic : List ((String × String) × ℚ)
  offset : ℚ
deriving DecidableEq, Repr

namespace CompiledQubo

/-- The loop of `CompiledQubo::evaluate` (compiled_qubo.h lines 54-70): for
each term, dispatch on the product's length — 2 → quadratic, 1 → linear,
0 → offset, anything else → the `"QUBO was not created correctly"` error. -/
def evaluateLoop (enc : Encoder) (fd : String → ℚ) : Terms → BQMs → Except String BQMs
  | [], acc => .ok acc
  | t :: ts, acc =>
    if t.1.length = 2 then do
      let i ← decode enc (t.1.getD 0 0)
      let j ← decode enc (t.1.getD 1 0)
      evaluateLoop enc fd ts
        { acc with quadratic := storeAssoc acc.quadratic (i, j) (t.2.eval fd) }
    else if t.1.length = 1 then do
      let i ← decode enc (t.1.getD 0 0)
      evaluateLoop enc fd ts { acc with linear := storeAssoc acc.linear i (t.2.eval fd) }
    else if t.1.length = 0 then
      evaluateLoop enc fd ts { acc with offset := t.2.eval fd }
    else
      .error "QUBO was not created correctly. Please report the bug to the developer."

/-- `CompiledQubo::evaluate` (compiled_qubo.h lines 50-74). -/
def evaluate (ts : Terms) (fd : String → ℚ) (enc : Encoder) : Except String BQMs :=
  evaluateLoop enc fd ts ⟨[], [], 0⟩

theorem decode_ok {enc : Encoder} {i : ℕ} (h : i < enc.length) :
    decode enc i = .ok (enc.getD i "") := by
  unfold decode
  rw [List.get?_eq_getElem?, List.getElem?_eq_getElem h]
  rw [List.getD_eq_getElem enc "" h]

theorem evaluateLoop_ok (enc : Encoder) (fd : String → ℚ) :
    ∀ (ts : Terms) (acc : BQMs),
      (∀ t ∈ ts, t.1.length ≤ 2) → (∀ t ∈ ts, ∀ x ∈ t.1, x < enc.length) →
      ∃ b, evaluateLoop enc fd ts acc = .ok b := by
  intro ts
  induction ts with
  | nil => intro acc _ _; exact ⟨acc, rfl⟩
  | cons t ts ih =>
    intro acc hlen hbound
    have hlent := hlen t (List.mem_cons_self _ _)
    have hboundt := hbound t (List.mem_cons_self _ _)
    have hlen' : ∀ u ∈ ts, u.1.length ≤ 2 := fun u hu => hlen u (List.mem_cons_of_mem _ hu)
    have hbound' : ∀ u ∈ ts, ∀ x ∈ u.1, x < enc.length :=
      fun u hu => hbound u (List.mem_cons_of_mem _ hu)
    have hget : ∀ k, k < t.1.length → t.1.getD k 0 < enc.length := by
      intro k hk
      rw [List.getD_eq_getElem t.1 0 hk]
      exact hboundt _ (List.getElem_mem hk)
    by_cases h2 : t.1.length = 2
    · obtain ⟨b, hb⟩ := ih
        { acc with quadratic := (storeAssoc acc.quadratic ((enc.getD (t.1.getD 0 0) ""), (enc.getD (t.1.getD 1 0) "")) (t.2.eval fd)) }
        hlen' hbound'
      refine ⟨b, ?_⟩
      simp only [evaluateLoop]
      rw [if_pos h2, decode_ok (hget 0 (by omega)), decode_ok (hget 1 (by omega))]
      simpa using hb
    · by_cases h1 : t.1.length = 1
      · obtain ⟨b, hb⟩ := ih
          { acc with linear := (storeAssoc acc.linear (enc.getD (t.1.getD 0 0) "") (t.2.eval fd)) }
          hlen' hbound'
        refine ⟨b, ?_⟩
        simp only [evaluateLoop]
        rw [if_neg h2, if_pos h1, decode_ok (hget 0 (by omega))]
        simpa using hb
      · have h0 : t.1.length = 0 := by omega
        obtain ⟨b, hb⟩ := ih { acc with offset := t.2.eval fd } hlen' hbound'
        refine ⟨b, ?_⟩
        simp only [evaluateLoop]
        rw [if_neg h2, if_neg h1, if_pos h0]
        exact hb

end CompiledQubo

/-! ## Samples, energies and decoding (`model.h`, `decoded_solution.h`,
`utils.h`, `cpp_dimod/binary_quadratic_model.hpp`) -/

inductive Vartype where
  | BINARY
  | SPIN
deriving DecidableEq, Repr

/-- A sample keyed by label (`Sample<string>`). -/
abbrev Sample := List (String × ℤ)

def sampleLookup (s : Sample) (k : String) : Option ℤ :=
  (s.find? (fun e => e.1 = k)).map (·.2)

/-- `utils::binary_to_spin` (utils.h): despite its name it converts a spin
sample to a binary one, `b = (s + 1) / 2` with C++ integer division. -/
def binary_to_spin (s : Sample) : Sample :=
  s.map (fun e => (e.1, (e.2 + 1) / 2))

/-- `BinaryQuadraticModel::energy` (binary_quadratic_model.hpp lines
955-970).  The C++ reads the sample with `operator[]`, which silently
default-inserts `0` for a missing key; the model reads missing keys as `0`. -/
def BQMs.energy (b : BQMs) (s : Sample) : ℚ :=
  b.offset
    + (b.linear.map (fun e => (((sampleLookup s e.1).getD 0 : ℤ) : ℚ) * e.2)).sum
    + (b.quadratic.map (fun e =>
        (((sampleLookup s e.1.1).getD 0 : ℤ) : ℚ)
          * (((sampleLookup s e.1.2).getD 0 : ℤ) : ℚ) * e.2)).sum

namespace CompiledQubo

/-- The product part of `CompiledQubo::evaluate_energy`'s inner loop
(compiled_qubo.h lines 106-115): decode each index and read the sample,
throwing on a missing label. -/
def prodValue (enc : Encoder) (s : Sample) : List ℕ → Except String ℤ
  | [] => .ok 1
  | x :: xs => do
    let label ← decode enc x
    match sampleLookup s label with
    | some v => do
      let rest ← prodValue enc s xs
      .ok (v * rest)
    | none => .error ("The value of " ++ label ++ " was not contained in sample.")

/-- `CompiledQubo::evaluate_energy` (compiled_qubo.h lines 103-119). -/
def evaluate_energy (ts : Terms) (s : Sample) (fd : String → ℚ) (enc : Encoder) :
    Except String ℚ :=
  match ts with
  | [] => .ok 0
  | t :: rest => do
    let pv ← prodValue enc s t.1
    let e ← evaluate_energy rest s fd enc
    .ok ((pv : ℚ) * t.2.eval fd + e)

end CompiledQubo

/-- `CompiledSubH` (compiled_sub_h.h): a label, the compiled polynomial
(products unchanged by `compile_coeff`) and the optional constraint
condition (`nullptr` for a plain sub-Hamiltonian). -/
structure CompiledSubH where
  label : String
  cq : Terms
  cond : Option (ℚ → Bool)

/-- `DecodedSubH` (decoded_solution.h lines 12-46). -/
structure DecodedSubH where
  label : String
  energy : ℚ
  is_constraint : Bool
  satisfied : Bool
deriving DecidableEq, Repr

/-- The `DecodedSubH` constructor (decoded_solution.h lines 19-41). -/
def mkDecodedSubH (csh : CompiledSubH) (sample : Sample) (fd : String → ℚ)
    (enc : Encoder) (vt : Vartype) : Except String DecodedSubH := do
  let binary_sample := if vt = Vartype.BINARY then sample else binary_to_spin sample
  let energy ← CompiledQubo.evaluate_energy csh.cq binary_sample fd enc
  match csh.cond with
  | some c => .ok ⟨csh.label, energy, true, c energy⟩
  | none => .ok ⟨csh.label, energy, false, false⟩

/-- `DecodedSolution` (decoded_solution.h lines 49-123). -/
structure DecodedSolution where
  decoded_subhs : List DecodedSubH
  subh_values : List (String × ℚ)
  constraints : List (String × (Bool × ℚ))
  sample : Sample
  energy : ℚ
deriving DecidableEq, Repr

/-- `DecodedSolution::build_subh_values` (decoded_solution.h lines 116-122). -/
def build_subh_values (l : List DecodedSubH) : List (String × ℚ) :=
  l.foldl (fun m d => storeAssoc m d.label d.energy) []

/-- `DecodedSolution::build_constraints` (decoded_solution.h lines 106-114). -/
def build_constraints (l : List DecodedSubH) : List (String × (Bool × ℚ)) :=
  (l.filter (·.is_constraint)).foldl
    (fun m d => storeAssoc m d.label (d.satisfied, d.energy)) []

def mkDecodedSubHs (subhs : List CompiledSubH) (sample : Sample) (fd : String → ℚ)
    (enc : Encoder) (vt : Vartype) : Except String (List DecodedSubH) :=
  match subhs with
  | [] => .ok []
  | c :: cs => do
    let d ← mkDecodedSubH c sample fd enc vt
    let rest ← mkDecodedSubHs cs sample fd enc vt
    .ok (d :: rest)

/-- The `DecodedSolution` constructor (decoded_solution.h lines 57-74). -/
def mkDecodedSolution (subhs : List CompiledSubH) (sample : Sample) (energy : ℚ)
    (fd : String → ℚ) (enc : Encoder) (vt : Vartype) : Except String DecodedSolution := do
  let ds ← mkDecodedSubHs subhs sample fd enc vt
  .ok ⟨ds, build_subh_values ds, build_constraints ds, sample, energy⟩

/-- The old pipeline's `Model` (model.h): the compiled QUBO, the encoder and
the deduplicated sub-Hamiltonians. -/
structure OldModel where
  compiled_qubo : Terms
  enc : Encoder
  compiled_sub_hs : List CompiledSubH

namespace OldModel

/-- `Model::check_variable(Sample<string>&)` (model.h lines 282-290): every
model variable must appear in the sample; the first missing one raises. -/
def check_variable (m : OldModel) (s : Sample) : Except String Unit :=
  match m.enc.find? (fun v => (sampleLookup s v).isNone) with
  | some v => .error ("key: " ++ v ++ " was not found in the given sample")
  | none => .ok ()

/-- `Model::to_bqm` (model.h lines 56-58). -/
def to_bqm (m : OldModel) (fd : String → ℚ) : Except String BQMs :=
  CompiledQubo.evaluate m.compiled_qubo fd m.enc

/-- `Model::decode_sample` (model.h lines 255-270). -/
def decode_sample (m : OldModel) (sample : Sample) (vt : Vartype) (fd : String → ℚ) :
    Except String DecodedSolution := do
  let bqm ← to_bqm m fd
  let binary_sample := if vt = Vartype.BINARY then sample else binary_to_spin sample
  let _ ← check_variable m sample
  let energy := bqm.energy binary_sample
  mkDecodedSolution m.compiled_sub_hs sample energy fd m.enc vt

def decode_samples_loop (m : OldModel) (bqm : BQMs) (vt : Vartype) (fd : String → ℚ) :
    List Sample → Except String (List DecodedSolution)
  | [] => .ok []
  | s :: ss => do
    let binary_sample := if vt = Vartype.BINARY then s else binary_to_spin s
    let energy := bqm.energy binary_sample
    let sol ← mkDecodedSolution m.compiled_sub_hs s energy fd m.enc vt
    let rest ← decode_samples_loop m bqm vt fd ss
    .ok (sol :: rest)

/-- `Model::decode_samples` (model.h lines 231-251): one `to_bqm`, then the
per-sample loop.  Note: unlike `decode_sample`, the loop never calls
`check_variable`. -/
def decode_samples (m : OldModel) (samples : List Sample) (vt : Vartype)
    (fd : String → ℚ) : Except String (List DecodedSolution) := do
  let bqm ← to_bqm m fd
  decode_samples_loop m bqm vt fd samples

end OldModel

/-- The specification's reading of `decode_samples`: apply `decode_sample`
to each sample, in order, propagating errors. -/
def mapExcept {α β : Type} (f : α → Except String β) : List α → Except String (List β)
  | [] => .ok []
  | x :: xs => do
    let y ← f x
    let ys ← mapExcept f xs
    .ok (y :: ys)

theorem decode_sample_eq {m : OldModel} {fd : String → ℚ} {bqm : BQMs}
    (hbqm : OldModel.to_bqm m fd = .ok bqm) {s : Sample}
    (hchk : OldModel.check_variable m s = .ok ()) (vt : Vartype) :
    OldModel.decode_sample m s vt fd
      = mkDecodedSolution m.compiled_sub_hs s
          (BQMs.energy bqm (if vt = Vartype.BINARY then s else binary_to_spin s)) fd m.enc
          vt := by
  unfold OldModel.decode_sample
  rw [hbqm, hchk]
  rfl

theorem decode_samples_eq_map {m : OldModel} {fd : String → ℚ} {bqm : BQMs}
    (hbqm : OldModel.to_bqm m fd = .ok bqm) (vt : Vartype) :
    ∀ samples : List Sample, (∀ s ∈ samples, OldModel.check_variable m s = .ok ()) →
      OldModel.decode_samples m samples vt fd
        = mapExcept (fun s => OldModel.decode_sample m s vt fd) samples := by
  have hds : ∀ samples, OldModel.decode_samples m samples vt fd
      = OldModel.decode_samples_loop m bqm vt fd samples := by
    intro samples
    unfold OldModel.decode_samples
    rw [hbqm]
    rfl
  intro samples
  induction samples with
  | nil =>
    intro _
    rw [hds]
    rfl
  | cons s ss ih =>
    intro hchk
    rw [hds]
    have hchks := hchk s (List.mem_cons_self _ _)
    have hrest : OldModel.decode_samples_loop m bqm vt fd ss
        = mapExcept (fun s => OldModel.decode_sample m s vt fd) ss := by
      rw [← hds]
      exact ih (fun u hu => hchk u (List.mem_cons_of_mem _ hu))
    show (do
      let sol ← mkDecodedSolution m.compiled_sub_hs s
        (BQMs.energy bqm (if vt = Vartype.BINARY then s else binary_to_spin s)) fd m.enc vt
      let rest ← OldModel.decode_samples_loop m bqm vt fd ss
      Except.ok (sol :: rest)) = _
    rw [hrest, mapExcept, decode_sample_eq hbqm hchks vt]

/-! ## `Poly`/`Mono` copy and equality (`poly.h`) -/

/-- `Poly::copy` (poly.h lines 72-79): insert every `(prod, coeff)` pair of
the receiver into a fresh map; the coefficient pointers are shared, which a
value model renders as reusing the same `Coeff` values. -/
def polyCopy (ts : Terms) : Terms := ts.foldl insertTerm []

/-- `Mono::copy` (poly.h lines 163-167): the receiver's product and
coefficient are ignored — the returned copy is always
`Mono(Prod(), CoeffNum(1.0))`. -/
def monoCopy (x : VarProd × Coeff) : VarProd × Coeff :=
  match x with
  | _ => ([], Coeff.num 1)

/-- `Poly::equal_to` (poly.h lines 81-101): equal sizes, and every term of
the argument is found in the receiver with an equal coefficient. -/
def polyEqualTo (a b : Terms) : Bool :=
  a.length == b.length &&
    b.all fun t =>
      match findTerm a t.1 with
      | some c => c.equalTo t.2
      | none => false

/-- `Mono::equal_to` (poly.h lines 192-199). -/
def monoEqualTo (a b : VarProd × Coeff) : Bool :=
  decide (b.1 = a.1) && b.2.equalTo a.2

theorem findTerm_of_mem {ts : Terms} (hkeys : (ts.map (·.1)).Nodup)
    {t : VarProd × Coeff} (ht : t ∈ ts) : findTerm ts t.1 = some t.2 := by
  induction ts with
  | nil => cases ht
  | cons u ts ih =>
    rw [List.map_cons, List.nodup_cons] at hkeys
    rcases List.mem_cons.mp ht with rfl | ht
    · unfold findTerm
      rw [List.find?_cons_of_pos _ (by simp)]
      rfl
    · have hne : ¬(u.1 = t.1) := fun he =>
        hkeys.1 (he ▸ List.mem_map_of_mem (·.1) ht)
      unfold findTerm
      rw [List.find?_cons_of_neg _ (by simpa using hne)]
      exact ih hkeys.2 ht

theorem polyCopy_eq {ts : Terms} (hkeys : (ts.map (·.1)).Nodup) : polyCopy ts = ts := by
  have := ReduceOrder.foldl_insert_of_fresh ts [] (by simp) hkeys
  simpa [polyCopy] using this

theorem polyEqualTo_refl {ts : Terms} (hkeys : (ts.map (·.1)).Nodup) :
    polyEqualTo ts ts = true := by
  unfold polyEqualTo
  rw [Bool.and_eq_true]
  refine ⟨by simp, ?_⟩
  rw [List.all_eq_true]
  intro t ht
  rw [findTerm_of_mem hkeys ht]
  exact Coeff.equalTo_refl t.2

/-! ## The old-pipeline AST and its factories (`express.h`, `express.cpp`)

The `Constraint` node stores a `std::function` predicate; it is irrelevant
to the factory properties below and is left out of this inductive so that
equality stays decidable. -/

inductive OldExpr where
  | num (v : ℚ)
  | binary (label : String)
  | spin (label : String)
  | placeholder (label : String)
  | addList (children : List OldExpr)
  | mul (l r : OldExpr)
  | powNode (h : OldExpr) (exponent : ℤ)
  | subH (h : OldExpr) (label : String)
  | withPenalty (h p : OldExpr) (label : String)
  | userDefined (h : OldExpr)

namespace OldExpr

/-- `Base::add(BasePtr)` and the override `Add::add(BasePtr)` (express.cpp
lines 11-16 and 112-116): an `Add` receiver prepends the new child to its
cons list; any other receiver builds a fresh two-element `Add`.  Two numeric
literals are *not* folded. -/
def addB : OldExpr → OldExpr → OldExpr
  | addList cs, other => addList (other :: cs)
  | t, other => addList [t, other]

/-- `Base::add(double)` (express.cpp lines 18-27): adding `0.0` returns the
receiver unchanged, anything else builds a two-element `Add` (there is no
override, so this also applies to `Add` and `Num` receivers). -/
def addN (t : OldExpr) (v : ℚ) : OldExpr :=
  if v = 0 then t else addList [t, num v]

/-- `Base::mul(BasePtr)` (express.cpp lines 29-33): always a `Mul` node,
with no numeric folding. -/
def mulB (t other : OldExpr) : OldExpr :=
  mul t other

/-- `Base::mul(double)` (express.cpp lines 35-47): `1.0` returns the
receiver, `0.0` returns `Num(0)`, anything else builds a `Mul` node. -/
def mulDouble (t : OldExpr) (v : ℚ) : OldExpr :=
  if v = 1 then t else if v = 0 then num 0 else mul t (num v)

/-- `Base::pow` (express.cpp lines 57-64): start from the receiver and
multiply by it `exponent - 1` more times.  There is no validity check, so
every exponent below `2` — including zero and negative values — returns the
receiver itself. -/
def powB (t : OldExpr) (exponent : ℤ) : OldExpr :=
  (List.range (exponent - 1).toNat).foldl (fun r _ => mulB r t) t

/-- The `Pow` node constructor (express.h lines 370-379): throws
"`exponent` should be positive" when the exponent is zero or negative. -/
def powCtor (t : OldExpr) (exponent : ℤ) : Except String OldExpr :=
  if exponent ≤ 0 then .error "`exponent` should be positive"
  else .ok (powNode t exponent)

theorem powB_of_le_one (t : OldExpr) {k : ℤ} (hk : k ≤ 1) : powB t k = t := by
  unfold powB
  rw [show (k - 1).toNat = 0 by omega]
  rfl

end OldExpr

/-! ## The new-pipeline AST (`abstract_syntax_tree.hpp`) and its factories -/

inductive Expr where
  | add (children : List Expr)
  | mul (l r : Expr)
  | binary (name : String)
  | spin (name : String)
  | placeholder (name : String)
  | subH (e : Expr) (name : String)
  | constraint (e : Expr) (name : String) (cond : ℚ → Bool)
  | withPenalty (e p : Expr) (name : String)
  | userDefined (e : Expr)
  | num (v : ℚ)

/-- `operator+` (abstract_syntax_tree.hpp lines 418-436): two numeric
literals fold to a literal holding their sum; every other pair becomes a
fresh two-element `add_operator`. -/
def exprAdd : Expr → Expr → Expr
  | .num a, .num b => .num (a + b)
  | l, r => .add [l, r]

/-- `operator*` (abstract_syntax_tree.hpp lines 438-465): two numeric
literals fold to a literal holding their product; every other pair becomes
a `mul_operator`. -/
def exprMul : Expr → Expr → Expr
  | .num a, .num b => .num (a * b)
  | l, r => .mul l r

/-- The pybind `__pow__` binding (main.cpp lines 58-69): a non-positive
exponent throws; otherwise `result = expression` multiplied by the
expression `exponent - 1` more times, so exponent `1` returns the
expression itself. -/
def exprPow (e : Expr) (exponent : ℤ) : Except String Expr :=
  if exponent ≤ 0 then .error "`exponent` should be positive."
  else .ok ((List.range (exponent - 1).toNat).foldl (fun r _ => exprMul r e) e)

/-! ## Variables, products, polynomials (`variables.hpp`, `product.hpp`) -/

/-- The `variables` table: a name's index is its position of first sight. -/
abbrev Variables := List String

/-- `variables::index` (variables.hpp lines 50-58): same emplace-or-return
behavior as the old `Encoder::encode`. -/
def Variables.index (vars : Variables) (name : String) : Variables × ℕ :=
  encode vars name

/-- `variables::name` (variables.hpp lines 60-62); the C++ dereferences a
failed lookup (undefined behavior), the model totalizes it with `""`. -/
def Variables.nameOf (vars : Variables) (i : ℕ) : String :=
  vars.getD i ""

/-- `pyqubo::product`: the sorted index sequence of a monomial. -/
abbrev Product := List ℕ

/-- `std::set_union` on the two sorted index sequences (`operator*` on
products, variables.hpp lines 87-97). -/
def sortedUnion : List ℕ → List ℕ → List ℕ
  | [], l => l
  | l, [] => l
  | a :: as, b :: bs =>
    if a < b then a :: sortedUnion as (b :: bs)
    else if b < a then b :: sortedUnion (a :: as) bs
    else a :: sortedUnion as bs
termination_by l1 l2 => l1.length + l2.length

/-- `pyqubo::polynomial`: product → coefficient expression. -/
abbrev PolyNG := List (Product × Expr)

/-- The emplace-or-add step shared by the polynomial `operator+` and
`operator*` (variables.hpp lines 99-131): on a key collision the stored
coefficient becomes `stored + incoming` via the expression `operator+`. -/
def emplaceAddNG : PolyNG → Product × Expr → PolyNG
  | [], u => [u]
  | t :: ts, u => if t.1 = u.1 then (t.1, exprAdd t.2 u.2) :: ts else t :: emplaceAddNG ts u

/-- Polynomial `operator+` (variables.hpp lines 99-112). -/
def polyAddNG (p1 p2 : PolyNG) : PolyNG :=
  p2.foldl emplaceAddNG p1

/-- Polynomial `operator*` (variables.hpp lines 117-131). -/
def polyMulNG (p1 p2 : PolyNG) : PolyNG :=
  p1.foldl
    (fun acc t1 =>
      p2.foldl (fun acc2 t2 => emplaceAddNG acc2 (sortedUnion t1.1 t2.1, exprMul t1.2 t2.2))
        acc)
    []

/-- `robin_hood::unordered_map::emplace`: keeps the first value on a key
collision. -/
def emplaceAbsent {α : Type} : List (String × α) → String → α → List (String × α)
  | [], k, v => [(k, v)]
  | e :: m, k, v => if e.1 = k then e :: m else e :: emplaceAbsent m k v

/-! ## The two expansion visitors (`compiler.hpp`, `expand.hpp`)

The C++ visitors thread three pieces of mutable state: the `variables`
table and the `_sub_hamiltonians` / `_constraints` recorders.  The
`poly` single/multi wrapper of poly.hpp is a staging representation of
the underlying `pyqubo::polynomial` map; the model works directly on the
map value, whose `operator+` and `operator*` (variables.hpp lines
99-131) are `polyAddNG` and `polyMulNG`. -/

structure ExpSt where
  vars : Variables
  subHs : List (String × PolyNG)
  constraints : List (String × (PolyNG × (ℚ → Bool)))

mutual
/-- The compiler.hpp expansion visitor (lines 43-131): each case returns
the main polynomial, the accumulated penalty polynomial, and the updated
state.  The `sub_hamiltonian` and `constraint` recorders are commented
out in this revision (lines 102 and 108), so those cases just pass the
child's expansion through; `with_penalty` (lines 112-119) returns the
expression's polynomial and folds the expression's penalty, the penalty
polynomial and the penalty's penalty into the penalty accumulator. -/
def expandC : Expr → ExpSt → PolyNG × PolyNG × ExpSt
  | .add cs, st => expandCList cs st [] []
  | .mul l r, st =>
    let rl := expandC l st
    let rr := expandC r rl.2.2
    (polyMulNG rl.1 rr.1, polyAddNG rl.2.1 rr.2.1, rr.2.2)
  | .binary name, st =>
    let vi := Variables.index st.vars name
    ([([vi.2], Expr.num 1)], [], { st with vars := vi.1 })
  | .spin name, st =>
    let vi := Variables.index st.vars name
    ([([vi.2], Expr.num 2), ([], Expr.num (-1))], [], { st with vars := vi.1 })
  | .placeholder name, st => ([([], Expr.placeholder name)], [], st)
  | .subH e _, st => expandC e st
  | .constraint e _ _, st => expandC e st
  | .withPenalty e p _, st =>
    let re := expandC e st
    let rp := expandC p re.2.2
    (re.1, polyAddNG (polyAddNG re.2.1 rp.1) rp.2.1, rp.2.2)
  | .userDefined e, st => expandC e st
  | .num v, st => ([([], Expr.num v)], [], st)

/-- The `add_operator` loop of compiler.hpp lines 54-64: both
accumulators start empty and each child's polynomial and penalty are
folded in from the left. -/
def expandCList : List Expr → ExpSt → PolyNG → PolyNG → PolyNG × PolyNG × ExpSt
  | [], st, pacc, penacc => (pacc, penacc, st)
  | c :: cs, st, pacc, penacc =>
    let rc := expandC c st
    expandCList cs rc.2.2 (polyAddNG pacc rc.1) (polyAddNG penacc rc.2.1)
end

mutual
/-- The expand.hpp expansion visitor (lines 39-117).  It differs from
compiler.hpp in exactly three cases: `sub_hamiltonian` (line 91) records
a copy of the child polynomial under the sub-Hamiltonian's name,
`constraint` (line 97) records a copy paired with the condition, and
`with_penalty` (lines 101-105) returns the pair
`(e_polynomial, p_polynomial)` — the expression's own penalty and the
penalty's penalty are both dropped. -/
def expandE : Expr → ExpSt → PolyNG × PolyNG × ExpSt
  | .add cs, st => expandEList cs st [] []
  | .mul l r, st =>
    let rl := expandE l st
    let rr := expandE r rl.2.2
    (polyMulNG rl.1 rr.1, polyAddNG rl.2.1 rr.2.1, rr.2.2)
  | .binary name, st =>
    let vi := Variables.index st.vars name
    ([([vi.2], Expr.num 1)], [], { st with vars := vi.1 })
  | .spin name, st =>
    let vi := Variables.index st.vars name
    ([([vi.2], Expr.num 2), ([], Expr.num (-1))], [], { st with vars := vi.1 })
  | .placeholder name, st => ([([], Expr.placeholder name)], [], st)
  | .subH e name, st =>
    let r := expandE e st
    (r.1, r.2.1,
      { r.2.2 with subHs := emplaceAbsent r.2.2.subHs name r.1 })
  | .constraint e name cond, st =>
    let r := expandE e st
    (r.1, r.2.1,
      { r.2.2 with constraints := emplaceAbsent r.2.2.constraints name (r.1, cond) })
  | .withPenalty e p _, st =>
    let re := expandE e st
    let rp := expandE p re.2.2
    (re.1, rp.1, rp.2.2)
  | .userDefined e, st => expandE e st
  | .num v, st => ([([], Expr.num v)], [], st)

/-- The `add_operator` loop of expand.hpp lines 39-58 (first child
handled before the loop, which is the same left fold from empty
accumulators). -/
def expandEList : List Expr → ExpSt → PolyNG → PolyNG → PolyNG × PolyNG × ExpSt
  | [], st, pacc, penacc => (pacc, penacc, st)
  | c :: cs, st, pacc, penacc =>
    let rc := expandE c st
    expandEList cs rc.2.2 (polyAddNG pacc rc.1) (polyAddNG penacc rc.2.1)
end

/-- The auxiliary label of the new-generation reducer
(`convert_to_quadratic`, compiler.hpp line 180 and expand.hpp line 165):
the two variables' names joined with a spaced asterisk. -/
def newGenAuxLabel (vars : Variables) (i j : ℕ) : String :=
  Variables.nameOf vars i ++ " * " ++ Variables.nameOf vars j



/-! ## Concrete instances exercising the theorems below -/

/-- A feed dict binding every placeholder to `0`. -/
def fdZero : String → ℚ := fun _ => 0

/-- A cubic one-term polynomial over three registered variables. -/
def st0 : ReduceOrder.RState := ⟨[([0, 1, 2], Coeff.num 1)], ["a", "b", "c"]⟩

/-- The all-ones binary assignment on the first four indices. -/
def v0 : ℕ → ℚ := fun x => if x < 4 then 1 else 0

/-- A model with the single linear term `{0} ↦ 1` over the label `"a"`. -/
def m5 : OldModel := ⟨[([0], Coeff.num 1)], ["a"], []⟩

def exceptIsOk {ε α : Type} : Except ε α → Bool
  | .ok _ => true
  | .error _ => false

theorem RWF_st0 : ReduceOrder.RWF st0 := by
  refine ⟨?_, ?_, ?_, ?_⟩
  · intro t ht
    rw [show st0.terms = [([0, 1, 2], Coeff.num 1)] from rfl, List.mem_singleton] at ht
    subst ht
    decide
  · decide
  · decide
  · intro i j hmem
    exfalso
    have hstar := star_mem_mkAuxLabel i j
    rw [show st0.enc = ["a", "b", "c"] from rfl] at hmem
    have hcases : mkAuxLabel i j = "a" ∨ mkAuxLabel i j = "b" ∨ mkAuxLabel i j = "c" := by
      simpa using hmem
    rcases hcases with h | h | h <;> rw [h] at hstar <;> revert hstar <;> decide

/-! ## The claims -/

/-- Claim C1: on a well-formed reducer state, every term of the polynomial
returned by `make_quadratic` has a product of at most two indices, so the
size-error branch of `CompiledQubo::evaluate` is unreachable and the
evaluation succeeds. -/
theorem claim_C1 {st : ReduceOrder.RState} (hwf : ReduceOrder.RWF st) (s : Coeff)
    (fd : String → ℚ) :
    (∀ t ∈ (ReduceOrder.makeQuadratic s st).1.terms, t.1.length ≤ 2) ∧
      exceptIsOk (CompiledQubo.evaluate (ReduceOrder.makeQuadratic s st).1.terms fd
        (ReduceOrder.makeQuadratic s st).1.enc) = true := by
  obtain ⟨hwf', hh⟩ := ReduceOrder.makeQuadratic_spec hwf s
  have hlen : ∀ t ∈ (ReduceOrder.makeQuadratic s st).1.terms, t.1.length ≤ 2 := by
    intro t ht
    by_contra hgt
    have hhi : ReduceOrder.hasHigherDegree (ReduceOrder.makeQuadratic s st).1.terms
        = true := by
      unfold ReduceOrder.hasHigherDegree
      rw [List.any_eq_true]
      refine ⟨t, ht, ?_⟩
      simp only [decide_eq_true_eq]
      omega
    rw [hhi] at hh
    cases hh
  obtain ⟨b, hb⟩ := CompiledQubo.evaluateLoop_ok (ReduceOrder.makeQuadratic s st).1.enc fd
    (ReduceOrder.makeQuadratic s st).1.terms ⟨[], [], 0⟩ hlen hwf'.bounded
  refine ⟨hlen, ?_⟩
  unfold CompiledQubo.evaluate
  rw [hb]
  rfl

/-- Instance of C1 at a concrete cubic polynomial. -/
theorem claim_C1_witness :
    exceptIsOk (CompiledQubo.evaluate (ReduceOrder.makeQuadratic (Coeff.num 2) st0).1.terms
      fdZero (ReduceOrder.makeQuadratic (Coeff.num 2) st0).1.enc) = true :=
  (claim_C1 RWF_st0 (Coeff.num 2) fdZero).2

/-- Claim C2: the reducer's AND-constraint adds exactly the four penalty
terms `{a} ↦ 3s`, `{i,a} ↦ −2s`, `{j,a} ↦ −2s`, `{i,j} ↦ s` (stated through
the polynomial's value at every assignment); on binary values that penalty
vanishes when `a = i·j` and is at least `s` otherwise (for a nonnegative
strength); and with every auxiliary variable fixed to the product of its
pair, the reduced polynomial evaluates to the input polynomial. -/
theorem claim_C2 {st : ReduceOrder.RState} (hwf : ReduceOrder.RWF st) (s : Coeff)
    (v : ℕ → ℚ) (fd : String → ℚ) (hbin : ∀ x, v x = 0 ∨ v x = 1)
    (hfix : ∀ r ∈ (ReduceOrder.makeQuadratic s st).2, v r.aux = v r.i * v r.j) :
    (∀ (ts : Terms) (i j a : ℕ),
        ReduceOrder.evalTerms v fd (ReduceOrder.addAndConstraint ts i j a s)
          = ReduceOrder.evalTerms v fd ts
            + (3 * Coeff.eval fd s * v a - 2 * Coeff.eval fd s * v i * v a
                - 2 * Coeff.eval fd s * v j * v a + Coeff.eval fd s * v i * v j)) ∧
    (∀ bi bj ba : ℚ, (bi = 0 ∨ bi = 1) → (bj = 0 ∨ bj = 1) → (ba = 0 ∨ ba = 1) →
        (ba = bi * bj →
          3 * Coeff.eval fd s * ba - 2 * Coeff.eval fd s * bi * ba
            - 2 * Coeff.eval fd s * bj * ba + Coeff.eval fd s * bi * bj = 0) ∧
        (0 ≤ Coeff.eval fd s → ba ≠ bi * bj →
          Coeff.eval fd s ≤ 3 * Coeff.eval fd s * ba - 2 * Coeff.eval fd s * bi * ba
            - 2 * Coeff.eval fd s * bj * ba + Coeff.eval fd s * bi * bj)) ∧
    ReduceOrder.evalTerms v fd (ReduceOrder.makeQuadratic s st).1.terms
      = ReduceOrder.evalTerms v fd st.terms := by
  refine ⟨?_, ?_, ?_⟩
  · intro ts i j a
    exact ReduceOrder.evalTerms_addAndConstraint v fd ts i j a s
  · intro bi bj ba h1 h2 h3
    constructor
    · intro hab
      rcases h1 with rfl | rfl <;> rcases h2 with rfl | rfl <;> subst hab <;> ring
    · intro hs hab
      rcases h1 with rfl | rfl <;> rcases h2 with rfl | rfl <;> rcases h3 with rfl | rfl
      · exact absurd (by norm_num) hab
      · linarith
      · exact absurd (by norm_num) hab
      · linarith
      · exact absurd (by norm_num) hab
      · linarith
      · linarith
      · exact absurd (by norm_num) hab
  · exact ReduceOrder.makeQuadraticAux_eval s (ReduceOrder.measureT st.terms) st hwf v fd
      hbin hfix

/-- Instance of C2: the reduced cubic evaluates as the input under the
all-ones assignment, whose auxiliary value equals its pair's product. -/
theorem claim_C2_witness :
    ReduceOrder.evalTerms v0 fdZero (ReduceOrder.makeQuadratic (Coeff.num 2) st0).1.terms
      = ReduceOrder.evalTerms v0 fdZero st0.terms := by
  have hbin : ∀ x, v0 x = 0 ∨ v0 x = 1 := by
    intro x
    unfold v0
    by_cases h : x < 4
    · right
      rw [if_pos h]
    · left
      rw [if_neg h]
  have hfix : ∀ r ∈ (ReduceOrder.makeQuadratic (Coeff.num 2) st0).2,
      v0 r.aux = v0 r.i * v0 r.j := by
    have hrepl : (ReduceOrder.makeQuadratic (Coeff.num 2) st0).2
        = [⟨0, 1, 3⟩] := rfl
    rw [hrepl]
    intro r hr
    rw [List.mem_singleton] at hr
    subst hr
    show v0 3 = v0 0 * v0 1
    norm_num [v0]
  exact (claim_C2 RWF_st0 (Coeff.num 2) v0 fdZero hbin hfix).2.2

/-- Claim C3: on a well-formed state each iteration of the `make_quadratic`
loop strictly decreases Σ max(0, size − 2) over the terms, and the loop
reaches a state with no term of degree above two within that many
iterations. -/
theorem claim_C3 {st : ReduceOrder.RState} (hwf : ReduceOrder.RWF st) (s : Coeff) :
    (ReduceOrder.hasHigherDegree st.terms = true →
      ReduceOrder.measureT (ReduceOrder.reduceStep s st).1.terms
        < ReduceOrder.measureT st.terms) ∧
    ReduceOrder.hasHigherDegree (ReduceOrder.makeQuadratic s st).1.terms = false :=
  ⟨fun hh => ReduceOrder.measureT_reduceStep_lt hwf hh s,
    (ReduceOrder.makeQuadratic_spec hwf s).2⟩

/-- Instance of C3 at a concrete cubic polynomial. -/
theorem claim_C3_witness :
    ReduceOrder.measureT (ReduceOrder.reduceStep (Coeff.num 2) st0).1.terms
        < ReduceOrder.measureT st0.terms ∧
      ReduceOrder.hasHigherDegree (ReduceOrder.makeQuadratic (Coeff.num 2) st0).1.terms
        = false := by
  have h := claim_C3 RWF_st0 (Coeff.num 2)
  exact ⟨h.1 (by decide), h.2⟩

/-- Claim C4: in the compiler.hpp expansion visitor, a `with_penalty` node
returns the expression's polynomial as the main result and accumulates
`penalty_e + poly_p + penalty_p` as the penalty.  (The expand.hpp revision
of the same visitor instead returns the penalty expansion's polynomial
alone, dropping both penalties; see the counterexample.) -/
theorem claim_C4 (e p : Expr) (lab : String) (st : ExpSt) :
    (expandC (Expr.withPenalty e p lab) st).1 = (expandC e st).1 ∧
      (expandC (Expr.withPenalty e p lab) st).2.1
        = polyAddNG (polyAddNG (expandC e st).2.1 (expandC p (expandC e st).2.2).1)
            (expandC p (expandC e st).2.2).2.1 :=
  ⟨rfl, rfl⟩

/-- Refutation of C4 for the expand.hpp visitor: on a nested `with_penalty`
the returned penalty is the inner penalty expansion's polynomial only, not
`penalty_e + poly_p + penalty_p`. -/
theorem claim_C4_counterexample :
    (expandE (Expr.withPenalty (Expr.withPenalty (Expr.binary "a") (Expr.binary "b") "in")
        (Expr.binary "c") "out") ⟨[], [], []⟩).2.1 = [([2], Expr.num 1)] ∧
      polyAddNG
          (polyAddNG
            (expandE (Expr.withPenalty (Expr.binary "a") (Expr.binary "b") "in")
              ⟨[], [], []⟩).2.1
            (expandE (Expr.binary "c")
              (expandE (Expr.withPenalty (Expr.binary "a") (Expr.binary "b") "in")
                ⟨[], [], []⟩).2.2).1)
          (expandE (Expr.binary "c")
            (expandE (Expr.withPenalty (Expr.binary "a") (Expr.binary "b") "in")
              ⟨[], [], []⟩).2.2).2.1
        = [([1], Expr.num 1), ([2], Expr.num 1)] ∧
      ([([2], Expr.num 1)] : PolyNG) ≠ [([1], Expr.num 1), ([2], Expr.num 1)] := by
  refine ⟨rfl, rfl, ?_⟩
  intro h
  have hlen := congrArg List.length h
  simp at hlen

/-- Claim C5: `decode_samples` equals mapping `decode_sample` over the
samples in order — provided the compiled QUBO evaluates successfully and
every sample contains every model variable.  (Without the latter the two
differ: `decode_samples` never calls `check_variable`, so a sample with a
missing variable decodes without error while `decode_sample` raises; see
the counterexample.) -/
theorem claim_C5 {m : OldModel} {fd : String → ℚ} {bqm : BQMs}
    (hbqm : OldModel.to_bqm m fd = .ok bqm) (vt : Vartype) (samples : List Sample)
    (hchk : ∀ s ∈ samples, OldModel.check_variable m s = .ok ()) :
    OldModel.decode_samples m samples vt fd
      = mapExcept (fun s => OldModel.decode_sample m s vt fd) samples :=
  decode_samples_eq_map hbqm vt samples hchk

/-- Instance of C5 on a complete sample. -/
theorem claim_C5_witness :
    OldModel.decode_samples m5 [[("a", 1)]] Vartype.BINARY fdZero
      = mapExcept (fun s => OldModel.decode_sample m5 s Vartype.BINARY fdZero)
          [[("a", 1)]] :=
  claim_C5
    (show OldModel.to_bqm m5 fdZero = Except.ok ⟨[("a", 1)], [], 0⟩ from rfl)
    Vartype.BINARY [[("a", 1)]]
    (by
      intro s hs
      rw [List.mem_singleton] at hs
      subst hs
      rfl)

/-- Refutation of unconditional C5: on a sample missing the variable
`"a"`, `decode_samples` succeeds while mapping `decode_sample` raises. -/
theorem claim_C5_counterexample :
    exceptIsOk (OldModel.decode_samples m5 [[]] Vartype.BINARY fdZero) = true ∧
      mapExcept (fun s => OldModel.decode_sample m5 s Vartype.BINARY fdZero) [[]]
        = .error "key: a was not found in the given sample" ∧
      OldModel.decode_samples m5 [[]] Vartype.BINARY fdZero
        ≠ mapExcept (fun s => OldModel.decode_sample m5 s Vartype.BINARY fdZero) [[]] := by
  refine ⟨rfl, rfl, ?_⟩
  intro h
  exact Except.noConfusion h

/-- Claim C6: the reducer's auxiliary label.  The old pipeline's
`create_new_var` registers the label built from the numeric indices joined
by a bare `"*"` (not the variables' names joined by `" * "`; see the
counterexample), at a fresh index when the label is new; the new pipeline's
`convert_to_quadratic` registers the variables' names joined by `" * "`,
likewise at a fresh index. -/
theorem claim_C6 (p : ℕ × ℕ) (enc : Encoder) (h : mkAuxLabel p.1 p.2 ∉ enc)
    (vars : Variables) (i j : ℕ) (hl : newGenAuxLabel vars i j ∉ vars) :
    ReduceOrder.createNewVar p enc = (enc ++ [mkAuxLabel p.1 p.2], enc.length) ∧
      Variables.index vars (newGenAuxLabel vars i j)
        = (vars ++ [newGenAuxLabel vars i j], vars.length) := by
  constructor
  · unfold ReduceOrder.createNewVar
    exact ReduceOrder.encode_of_fresh h
  · unfold Variables.index
    exact ReduceOrder.encode_of_fresh hl

/-- Instance of C6 at the pair `(1, 2)` over three named variables. -/
theorem claim_C6_witness :
    ReduceOrder.createNewVar (1, 2) ["a", "b", "c"] = (["a", "b", "c", "1*2"], 3) ∧
      Variables.index ["a", "b", "c"] (newGenAuxLabel ["a", "b", "c"] 1 2)
        = (["a", "b", "c", "b * c"], 3) :=
  claim_C6 (1, 2) ["a", "b", "c"] (by decide) ["a", "b", "c"] 1 2 (by decide)

/-- Refutation of C6 for the old pipeline: the label it registers is the
index string `"1*2"`, not the names joined by a spaced asterisk. -/
theorem claim_C6_counterexample :
    (ReduceOrder.createNewVar (1, 2) ["a", "b", "c"]).1.getD 3 "" = "1*2" ∧
      newGenAuxLabel ["a", "b", "c"] 1 2 = "b * c" ∧ ("1*2" : String) ≠ "b * c" := by
  refine ⟨rfl, rfl, by decide⟩

/-- Claim C7: the new pipeline's `operator+` and `operator*` fold two
numeric literals into a single literal holding the sum or product.  (The
old pipeline's `Base::add` and `Base::mul` never fold; see the
counterexample.) -/
theorem claim_C7 (a b : ℚ) :
    exprAdd (Expr.num a) (Expr.num b) = Expr.num (a + b) ∧
      exprMul (Expr.num a) (Expr.num b) = Expr.num (a * b) :=
  ⟨rfl, rfl⟩

/-- Refutation of C7 for the old pipeline: `Base::add` builds an `Add` node
and `Base::mul` a `Mul` node even on two numeric literals. -/
theorem claim_C7_counterexample :
    OldExpr.addB (OldExpr.num 2) (OldExpr.num 3) ≠ OldExpr.num 5 ∧
      OldExpr.mulB (OldExpr.num 2) (OldExpr.num 3) ≠ OldExpr.num 6 :=
  ⟨fun h => OldExpr.noConfusion h, fun h => OldExpr.noConfusion h⟩

/-- Claim C8: `pow(e, 1)` returns `e` itself in the pybind `__pow__`
binding and in `Base::pow` (whose multiply loop runs zero times), while the
`Pow` node constructor never returns `e` — at exponent `1` it wraps `e` in
a `Pow` node.  A non-positive exponent raises in the binding (message with
a trailing period) and in the constructor (message without one);
`Base::pow` has no check and returns the receiver silently for every
exponent below two (see the counterexample). -/
theorem claim_C8 (e : Expr) (t : OldExpr) (k : ℤ) (hk : k ≤ 0) :
    exprPow e 1 = .ok e ∧
      OldExpr.powB t 1 = t ∧
      OldExpr.powCtor t 1 = .ok (OldExpr.powNode t 1) ∧
      OldExpr.powNode t 1 ≠ t ∧
      exprPow e k = .error "`exponent` should be positive." ∧
      OldExpr.powCtor t k = .error "`exponent` should be positive" ∧
      OldExpr.powB t k = t := by
  refine ⟨rfl, OldExpr.powB_of_le_one t le_rfl, rfl, ?_, ?_, ?_, ?_⟩
  · intro h
    have h2 := congrArg SizeOf.sizeOf h
    simp at h2
    omega
  · unfold exprPow
    rw [if_pos hk]
  · unfold OldExpr.powCtor
    rw [if_pos hk]
  · exact OldExpr.powB_of_le_one t (by omega)

/-- Instance of C8 at exponent `−1`. -/
theorem claim_C8_witness :
    exprPow (Expr.num 7) 1 = .ok (Expr.num 7) ∧
      OldExpr.powB (OldExpr.num 7) 1 = OldExpr.num 7 ∧
      OldExpr.powCtor (OldExpr.num 7) 1 = .ok (OldExpr.powNode (OldExpr.num 7) 1) ∧
      OldExpr.powNode (OldExpr.num 7) 1 ≠ OldExpr.num 7 ∧
      exprPow (Expr.num 7) (-1) = .error "`exponent` should be positive." ∧
      OldExpr.powCtor (OldExpr.num 7) (-1) = .error "`exponent` should be positive" ∧
      OldExpr.powB (OldExpr.num 7) (-1) = OldExpr.num 7 :=
  claim_C8 (Expr.num 7) (OldExpr.num 7) (-1) (by decide)

/-- Refutation of C8: `Base::pow` returns the receiver instead of failing
on a zero or negative exponent, and the `Pow` node constructor does not
return the expression itself at exponent `1`. -/
theorem claim_C8_counterexample :
    OldExpr.powB (OldExpr.num 7) 0 = OldExpr.num 7 ∧
      OldExpr.powB (OldExpr.num 7) (-3) = OldExpr.num 7 ∧
      OldExpr.powCtor (OldExpr.num 7) 1 ≠ .ok (OldExpr.num 7) := by
  refine ⟨rfl, rfl, ?_⟩
  intro h
  have h2 := Except.ok.inj h
  exact OldExpr.noConfusion h2

/-- Claim C9: `Poly::copy` returns a polynomial equal to the receiver under
`equal_to` (with shared coefficient values), but `Mono::copy` ignores the
receiver entirely and always returns `Mono(Prod(), CoeffNum(1.0))`, which is
not equal to a receiver with any other product or coefficient. -/
theorem claim_C9 :
    monoCopy ([1, 2], Coeff.num 2) = ([], Coeff.num 1) ∧
      monoEqualTo (monoCopy ([1, 2], Coeff.num 2)) ([1, 2], Coeff.num 2) = false ∧
      ∀ ts : Terms, (ts.map (·.1)).Nodup → polyEqualTo (polyCopy ts) ts = true := by
  refine ⟨rfl, rfl, ?_⟩
  intro ts h
  rw [polyCopy_eq h]
  exact polyEqualTo_refl h

/-- Instance of C9's `Poly::copy` part on a two-term polynomial. -/
theorem claim_C9_witness :
    polyEqualTo (polyCopy [([0], Coeff.num 1), ([1], Coeff.num 2)])
        [([0], Coeff.num 1), ([1], Coeff.num 2)] = true :=
  claim_C9.2.2 [([0], Coeff.num 1), ([1], Coeff.num 2)] (by decide)

/-- Claim C10: coefficient equality is order-insensitive for `CoeffMul`
— the swapped product always passes — but position-sensitive for
`CoeffAdd`: the swapped sum passes exactly when the two children are
mutually equal, and a concrete swapped sum of distinct literals fails. -/
theorem claim_C10 (a b : Coeff) :
    Coeff.equalTo (Coeff.cmul a b) (Coeff.cmul b a) = true ∧
      (Coeff.equalTo (Coeff.cadd a b) (Coeff.cadd b a) = true ↔
        (Coeff.equalTo a b = true ∧ Coeff.equalTo b a = true)) ∧
      Coeff.equalTo (Coeff.cadd (Coeff.num 1) (Coeff.num 2))
        (Coeff.cadd (Coeff.num 2) (Coeff.num 1)) = false := by
  refine ⟨?_, ?_, rfl⟩
  · show (Coeff.equalTo a b && Coeff.equalTo b a
      || (Coeff.equalTo b b && Coeff.equalTo a a)) = true
    rw [Coeff.equalTo_refl, Coeff.equalTo_refl]
    simp
  · show (Coeff.equalTo a b && Coeff.equalTo b a) = true ↔ _
    rw [Bool.and_eq_true]
